import Mathlib

/-!
# Falkon: profile manager and bookmarks toolbar button

A shallow embedding of `src/lib/app/profilemanager.cpp` and of the mouse
handlers of `src/lib/bookmarks/bookmarkstoolbarbutton.cpp`.

The program is written against Qt.  The Qt classes it uses (`QString`, `QDir`,
`QFile`, `QFileInfo`) are modelled here over an explicit file-system state;
every effect of the program is a function from state to state.  Return values
that the C++ code ignores are ignored here as well.

Scope of the file-system model: a tree of directories and regular files
addressed by Unix path strings, resolved from the root; no symbolic links, no
permissions and no shortage of space, so that an operation fails only for the
shape of the tree (a missing directory, a name that is taken, a directory
where a file is expected).  File contents are character strings.
-/

set_option autoImplicit false

namespace Falkon

/-! ## QString -/

/-- A `QString` is modelled as its list of characters. -/
abbrev QString := List Char

/-- Literal helper: the characters of a string literal. -/
def qs (s : String) : QString := s.data

/-- `QChar::isSpace`: the ASCII white space 0x09..0x0D and 0x20, NEL, NBSP and
the Unicode separator characters. -/
def isSpace (c : Char) : Bool :=
  let n := c.toNat
  (9 ≤ n && n ≤ 13) || n == 32 || n == 0x85 || n == 0xA0 || n == 0x1680 ||
  (0x2000 ≤ n && n ≤ 0x200A) || n == 0x2028 || n == 0x2029 || n == 0x202F ||
  n == 0x205F || n == 0x3000

/-- `QString::trimmed`: white space removed from both ends. -/
def trimmed (s : QString) : QString :=
  ((s.dropWhile isSpace).reverse.dropWhile isSpace).reverse

/-- `QString::split(sep)` with the default `KeepEmptyParts`: the pieces between
the separators, empty pieces included (so the result is never empty). -/
def split (sep : Char) : QString → List QString
  | [] => [[]]
  | c :: cs =>
    if c = sep then [] :: split sep cs
    else match split sep cs with
      | [] => [[c]]
      | h :: t => (c :: h) :: t

/-- `QString::lastIndexOf(ch)`: index of the last occurrence of `ch`, or `-1`. -/
def lastIndexOf (ch : Char) : QString → Int
  | [] => -1
  | c :: cs =>
    let r := lastIndexOf ch cs
    if r ≠ -1 then r + 1 else if c = ch then 0 else -1

/-- `QString::mid(position)`: the characters from `position` to the end; a
position past the end gives the null string, a negative one counts as 0. -/
def mid (s : QString) (position : Int) : QString :=
  if position > s.length then [] else s.drop position.toNat

/-- `QString::startsWith`. -/
def startsWith (pat s : QString) : Bool := pat.isPrefixOf s

/-- `QString::indexOf(str, from)`: the first index `i ≥ from` at which `pat`
occurs in `s`; `s` is passed already advanced to `from`. -/
def indexOfFrom (pat : QString) : QString → Nat → Option Nat
  | [], i => if pat = [] then some i else none
  | c :: cs, i => if startsWith pat (c :: cs) then some i else indexOfFrom pat cs (i + 1)

/-- The loop of `QString::remove(const QString &)`:
`while ((i = indexOf(str, i)) != -1) remove(i, str.size());`
Every round deletes `pat.length > 0` characters, so `s.length` rounds are
always enough; `fuel` is that bound. -/
def removeLoop (pat : QString) : Nat → QString → Nat → QString
  | 0, s, _ => s
  | fuel + 1, s, i =>
    match indexOfFrom pat (s.drop i) i with
    | none => s
    | some j => removeLoop pat fuel (s.take j ++ s.drop (j + pat.length)) j

/-- `QString::remove(str)`: removes EVERY occurrence of `str` in the string
(nothing is done for an empty `str`). -/
def remove (s pat : QString) : QString :=
  if pat = [] then s else removeLoop pat s.length s 0

/-! ## File system -/

/-- A node is a regular file with its contents, or a directory. -/
inductive Node where
  | file (content : QString)
  | dir
  deriving DecidableEq, Repr

/-- A resolved absolute path: the names from the root down; `[]` is the root. -/
abbrev Path := List QString

/-- The file-system state: the nodes other than the root, by resolved path. -/
abbrev FS := List (Path × Node)

namespace FS

/-- The entry stored at `p`. -/
def get : FS → Path → Option Node
  | [], _ => none
  | (q, n) :: rest, p => if q = p then some n else get rest p

/-- Store `n` at `p`, replacing an entry already there. -/
def set : FS → Path → Node → FS
  | [], p, n => [(p, n)]
  | (q, m) :: rest, p, n => if q = p then (q, n) :: rest else (q, m) :: set rest p n

/-- Drop the entry at `p`. -/
def erase : FS → Path → FS
  | [], _ => []
  | (q, m) :: rest, p => if q = p then erase rest p else (q, m) :: erase rest p

/-- The node at `p`; the root is always a directory. -/
def node (fs : FS) (p : Path) : Option Node :=
  if p = [] then some Node.dir else fs.get p

/-- Something (file or directory) exists at `p`. -/
def pathExists (fs : FS) (p : Path) : Bool := (fs.node p).isSome

/-- A directory exists at `p`. -/
def isDir (fs : FS) (p : Path) : Bool := fs.node p == some Node.dir

/-- The contents of the regular file at `p`, if there is one. -/
def content (fs : FS) (p : Path) : Option QString :=
  match fs.node p with
  | some (Node.file c) => some c
  | _ => none

/-- Well-formed state: every stored node lies in an existing directory, and
nothing is stored at the root. -/
def WF (fs : FS) : Prop :=
  ∀ e ∈ fs, e.1 ≠ [] ∧ fs.isDir e.1.dropLast = true

instance (fs : FS) : Decidable fs.WF := by unfold WF; infer_instance

end FS

/-! ## Path strings

A path string reaches the file system the way the operating system reads it:
name by name, and every name that is passed through has to be an existing
directory.  The working directory is taken to be the root; there are no
symbolic links.

A leading `:` marks a Qt resource path.  `QFile`, `QFileInfo` and `QDir`
objects hand such a path to the read-only resource system, which is no part
of the state: in the state such a path leads to nothing, so that nothing can
be written or removed there.  The two bundled files that the program reads by
their resource names are fields of the environment.  Whether a directory of
the resource system exists is not modelled (it counts as missing); the
theorems on the state after `createProfile` are stated for names that are no
resource paths. -/

/-- The names between the slashes of a path string; it serves to write down
the nodes of example states from clean absolute paths. -/
def pathOf (s : QString) : Path := (split '/' s).filter (fun c => c ≠ [])

/-- Path resolution as the operating system does it.  Every step starts in an
existing directory; an empty name and `.` stay there, `..` goes to the parent
(the root is its own parent), any other name goes below.  The last name need
not exist. -/
def walk (fs : FS) : Path → List QString → Option Path
  | cur, [] => some cur
  | cur, c :: cs =>
    if fs.isDir cur = false then none
    else if c = [] ∨ c = ['.'] then walk fs cur cs
    else if c = ['.', '.'] then walk fs cur.dropLast cs
    else walk fs (cur ++ [c]) cs

/-- A Qt resource path: it starts with a colon. -/
def isResourcePath (name : QString) : Bool := name.head? == some ':'

/-- The place a path string leads to for the operating system, if the way
there exists; the empty string leads nowhere. -/
def resolveNative (fs : FS) (s : QString) : Option Path :=
  if s = [] then none else walk fs [] (split '/' s)

/-- The place a path string leads to for `QFile`, `QFileInfo` and `QDir`
objects, which hand a resource path to the resource system and every other
path to the operating system. -/
def resolve (fs : FS) (s : QString) : Option Path :=
  if isResourcePath s then none else resolveNative fs s

/-- The names joined by slashes. -/
def joinNames : Path → QString
  | [] => []
  | [c] => c
  | c :: d :: cs => c ++ '/' :: joinNames (d :: cs)

/-- One step of `qt_normalizePathSegments`, on the names kept so far and the
flag that a `..` had nothing to cancel: empty names and `.` are dropped, `..`
cancels the name before it, or is kept when there is none to cancel. -/
def cleanStep (st : Path × Bool) (c : QString) : Path × Bool :=
  if c = [] ∨ c = ['.'] then st
  else if c = ['.', '.'] then
    if st.1 ≠ [] ∧ st.1.getLast? ≠ some ['.', '.'] then (st.1.dropLast, st.2)
    else (st.1 ++ [c], true)
  else (st.1 ++ [c], st.2)

/-- `QDir::cleanPath(path)` together with the success flag of
`qt_normalizePathSegments`: the path without empty names, `.` and cancelled
`..`, purely on the string.  The flag is false when an absolute path has a
`..` left over, that is, when it leads above the root. -/
def cleanPath (s : QString) : QString × Bool :=
  if s = [] then ([], false)
  else
    let r := (split '/' s).foldl cleanStep ([], false)
    if s.head? = some '/' then ('/' :: joinNames r.1, !r.2)
    else if r.1 = [] then (['.'], true)
    else (joinNames r.1, true)

/-- The loop `while (size > 1 && endsWith('/')) chop(1)`, on the reversed
string. -/
def chopRev : QString → QString
  | [] => []
  | [c] => [c]
  | c :: d :: cs => if c = '/' then chopRev (d :: cs) else c :: d :: cs

/-- A path string without its trailing slashes. -/
def chopSlashes (s : QString) : QString := (chopRev s.reverse).reverse

/-! ## QDir, QFile, QFileInfo -/

/-- A `QDir` object: the path it was given. -/
structure QDir where
  path : QString
  deriving DecidableEq, Repr

namespace QDir

/-- `QDir(path)`: an empty path means `.`, and one trailing slash is dropped
from a path longer than one character. -/
def ofPath (s : QString) : QDir :=
  if s = [] then ⟨['.']⟩
  else if s.length > 1 ∧ s.getLast? = some '/' then ⟨s.dropLast⟩
  else ⟨s⟩

/-- `QDir::isAbsolutePath` (Unix): the name starts with a slash, or with the
colon of a resource path. -/
def isAbsolutePath (name : QString) : Bool := name.head? == some '/' || isResourcePath name

/-- `QDir::absolutePath()`: the cleaned absolute path; a relative path is
taken from the working directory, the root. -/
def absolutePath (d : QDir) : QString :=
  if isAbsolutePath d.path then (cleanPath d.path).1 else (cleanPath ('/' :: d.path)).1

/-- `QDir::dirName()`: the part of the path after its last slash. -/
def dirName (d : QDir) : QString := mid d.path (lastIndexOf '/' d.path + 1)

/-- `QDir::exists()`: the path leads to an existing directory. -/
def dirExists (fs : FS) (d : QDir) : Bool :=
  match resolve fs d.path with
  | some p => fs.isDir p
  | none => false

/-- `QDir::filePath(fileName)`: an absolute `fileName` is returned as it is;
a relative one is appended to the directory path, with a slash in between
unless the path already ends in one. -/
def filePath (d : QDir) (fileName : QString) : QString :=
  if isAbsolutePath fileName then fileName
  else if fileName = [] then d.path
  else if d.path ≠ [] ∧ d.path.getLast? ≠ some '/' then d.path ++ '/' :: fileName
  else d.path ++ fileName

/-- `QFileSystemEngine::createDirectory` without parents: `mkdir(2)` on the
path without its trailing slashes.  It fails when the way to the directory
does not exist, when the last name is `.` or `..`, and when something exists
there already.  The path goes to the operating system as it is. -/
def createDirectory (fs : FS) (s : QString) : Bool × FS :=
  let dirName := chopSlashes s
  let last := (split '/' dirName).getLast?.getD []
  if last = ['.'] ∨ last = ['.', '.'] then (false, fs)
  else match resolveNative fs dirName with
    | none => (false, fs)
    | some t => if fs.pathExists t then (false, fs) else (true, fs.set t Node.dir)

/-- `QDir::mkdir(dirName)`: creates the directory `filePath(dirName)`; false
for an empty name and for a directory object of the resource system. -/
def mkdir (fs : FS) (d : QDir) (name : QString) : Bool × FS :=
  if name = [] then (false, fs)
  else if isResourcePath d.path then (false, fs)
  else createDirectory fs (filePath d name)

/-- The loop of `QDir::mkpath`: walks down from `cur`, creating what is
missing; stops with false at a component that exists as a regular file. -/
def mkpathFrom (fs : FS) (cur : Path) : List QString → Bool × FS
  | [] => (true, fs)
  | c :: cs =>
    let p := cur ++ [c]
    match fs.node p with
    | some Node.dir => mkpathFrom fs p cs
    | some (Node.file _) => (false, fs)
    | none => mkpathFrom (fs.set p Node.dir) p cs

/-- `QDir::mkpath(dirPath)`: creates the directory of the cleaned path and
all its missing parents. -/
def mkpath (fs : FS) (s : QString) : Bool × FS :=
  mkpathFrom fs [] ((split '/' s).foldl cleanStep ([], false)).1

/-- `QDir::cd(dirName)`: moves to the named directory when it exists, and
stays where it is otherwise.  An absolute name is cleaned and taken as it is;
a relative one is appended, and the result is cleaned when the name holds a
slash, is `..`, or the directory is `.`; a path that then leads above the
root is refused. -/
def cd (fs : FS) (d : QDir) (name : QString) : QDir :=
  if name = [] ∨ name = ['.'] then d
  else
    let target : Option QString :=
      if isAbsolutePath name then some (cleanPath name).1
      else
        let newPath :=
          if d.path.getLast? = some '/' then d.path ++ name else d.path ++ '/' :: name
        if '/' ∈ name ∨ name = ['.', '.'] ∨ d.path = ['.'] then
          let c := cleanPath newPath
          if c.2 = false then none
          else if startsWith ['.', '.'] c.1 then some (cleanPath ('/' :: c.1)).1
          else some c.1
        else some newPath
    match target with
    | none => d
    | some p => if dirExists fs (ofPath p) then ofPath p else d

end QDir

namespace QFile

/-- `QFile::exists()` and `QFileInfo::exists(path)`: the path leads to an
existing file or directory. -/
def fileExists (fs : FS) (s : QString) : Bool :=
  match resolve fs s with
  | some p => fs.pathExists p
  | none => false

/-- The contents of the regular file a path string leads to. -/
def contentAt (fs : FS) (s : QString) : Option QString :=
  match resolve fs s with
  | some p => fs.content p
  | none => none

/-- `open(ReadOnly); readAll(); close()`: the contents of a regular file; when
the file cannot be opened, `readAll` yields nothing. -/
def readAll (fs : FS) (s : QString) : QString := (contentAt fs s).getD []

/-- `open(WriteOnly); write(data); close()`: an existing regular file is
truncated and rewritten, a missing one is created when the way to it exists;
in every other case the open fails and nothing is written. -/
def writeAll (fs : FS) (s : QString) (data : QString) : FS :=
  match resolve fs s with
  | none => fs
  | some t =>
    match fs.node t with
    | some Node.dir => fs
    | some (Node.file _) => fs.set t (Node.file data)
    | none => if fs.isDir t.dropLast then fs.set t (Node.file data) else fs

/-- `QFile::remove()`: removes a regular file; false when there is none. -/
def remove (fs : FS) (s : QString) : Bool × FS :=
  match resolve fs s with
  | none => (false, fs)
  | some t =>
    match fs.node t with
    | some (Node.file _) => (true, fs.erase t)
    | _ => (false, fs)

/-- `QFile::copy(newName)` for source contents `src` (`none`: the source
cannot be read).  No overwriting: false when `newName` exists; false when the
source cannot be read or the way to the target does not exist. -/
def copyContent (fs : FS) (src : Option QString) (newName : QString) : Bool × FS :=
  match resolve fs newName with
  | none => (false, fs)
  | some t =>
    if fs.pathExists t then (false, fs)
    else match src with
      | none => (false, fs)
      | some c => if fs.isDir t.dropLast then (true, fs.set t (Node.file c)) else (false, fs)

/-- `QFile(name).copy(newName)` between two files of the file system. -/
def copy (fs : FS) (name newName : QString) : Bool × FS :=
  copyContent fs (contentAt fs name) newName

end QFile

/-! ## QzTools (helpers that are not among the sources at hand) -/

namespace QzTools

/-- Modelled from the spec: `QzTools::readAllFileContents` is outside the
sources at hand; it reads a whole file and gives the empty string when the
file cannot be opened. -/
def readAllFileContents (fs : FS) (s : QString) : QString := QFile.readAll fs s

/-- The candidate name number `i`: `(i)` goes before the last dot of the file
name, or at the end when there is no dot. -/
def numbered (fileName : QString) (i : Nat) : QString :=
  let app := '(' :: (Nat.repr i).data ++ [')']
  let idx := lastIndexOf '.' fileName
  if idx = -1 then fileName ++ app
  else fileName.take idx.toNat ++ app ++ fileName.drop idx.toNat

/-- The search for a free candidate name.  The state holds finitely many
nodes; the search is cut after `fuel` candidates. -/
def uniqueLoop (fs : FS) (dir fileName : QString) : Nat → Nat → QString → QString
  | 0, _, cur => cur
  | fuel + 1, i, cur =>
    if QFile.fileExists fs cur then
      uniqueLoop fs dir fileName fuel (i + 1) (dir ++ '/' :: numbered fileName i)
    else cur

/-- Modelled from the spec: `QzTools::ensureUniqueFilename` is outside the
sources at hand; it derives a unique name from the given one: the name itself
when nothing exists under it, else the first free numbered variant. -/
def ensureUniqueFilename (fs : FS) (name : QString) : QString :=
  if !QFile.fileExists fs name then name
  else
    let cut := (lastIndexOf '/' name + 1).toNat
    uniqueLoop fs (name.take (cut - 1)) (name.drop cut) (fs.length + 1) 1 name

end QzTools

/-! ## Environment of the profile manager -/

/-- `Updater::Version` (declared outside the sources at hand), taken as a
parameter: the type, its constructor from a string, the two comparison
operators that `updateProfile` uses and the field `revisionNumber`. -/
structure VersionOps where
  Ver : Type
  parse : QString → Ver
  gt : Ver → Ver → Bool
  lt : Ver → Ver → Bool
  revisionNumber : Ver → Int

/-- What the profile manager takes from the rest of the application: constants,
configured paths, bundled resources and external collaborators. -/
structure Env where
  /-- The constant `Qz::VERSION`. -/
  VERSION : QString
  /-- The value of `DataPaths::path(DataPaths::Config)`. -/
  config : QString
  /-- The value of `DataPaths::path(DataPaths::Profiles)`. -/
  profiles : QString
  /-- The class `Updater::Version`. -/
  ver : VersionOps
  /-- The value of `mApp->isPortable()`. -/
  isPortable : Bool
  /-- The value of `mApp->isPrivate()`. -/
  isPrivate : Bool
  /-- The QupZilla configuration directory of the platform. -/
  qzConfig : QString
  /-- The helper `QzTools::copyRecursively(source, target)`. -/
  copyRecursively : FS → QString → QString → FS
  /-- The resource `:data/profiles.ini`. -/
  resProfilesIni : QString
  /-- The resource `:data/bookmarks.json`. -/
  resBookmarksJson : QString
  /-- The resource `:/data/browsedata.sql`. -/
  browsedataSql : QString
  /-- The key `Profiles/startProfile` of `<Profiles>/profiles.ini`, read
  through `QSettings`, when it is set. -/
  startProfileSetting : FS → Option QString
  /-- The value of `db.isValid()` after `QSqlDatabase::addDatabase("QSQLITE")`. -/
  driverValid : Bool
  /-- The value of `db.open()`, given the read-only option and the database name. -/
  dbOpens : FS → Bool → QString → Bool
  /-- The value of `db.tables()` of the opened database. -/
  dbTables : FS → QString → List QString
  /-- The value of `query.exec(stmt)`, given the statements executed before. -/
  execOk : List QString → QString → Bool

/-- Effects that leave the process, in the order they happen. -/
inductive Event where
  /-- A line written to `std::cout`. -/
  | stdout (text : QString)
  /-- A `qCritical()` message. -/
  | critical (text : QString)
  /-- A `QMessageBox::warning`. -/
  | warningBox (title text : QString)
  /-- A `QSqlQuery::exec(stmt)`. -/
  | sqlExec (stmt : QString)
  /-- The call `SqlDatabase::instance()->setDatabase(db)`, by database name. -/
  | setDatabase (name : QString)
  deriving DecidableEq, Repr

/-- The state the profile manager works on. -/
structure World where
  /-- The file system. -/
  fs : FS
  /-- The value `DataPaths::currentProfilePath()` returns. -/
  currentProfilePath : QString
  /-- The effects so far, oldest first. -/
  events : List Event
  deriving DecidableEq, Repr

namespace World

/-- Record an effect. -/
def emit (w : World) (e : Event) : World := { w with events := w.events ++ [e] }

/-- Replace the file system. -/
def withFs (w : World) (fs : FS) : World := { w with fs := fs }

/-- `DataPaths::setCurrentProfilePath` (outside the sources at hand), taken
to store the path that `DataPaths::currentProfilePath` then returns. -/
def setCurrentProfilePath (w : World) (s : QString) : World :=
  { w with currentProfilePath := s }

end World

/-! ## ProfileManager -/

namespace ProfileManager

/-- `ProfileManager::migrateFromQupZilla()`. -/
def migrateFromQupZilla (E : Env) (w : World) : World :=
  if E.isPortable then w
  else if !QFile.fileExists w.fs E.qzConfig then w
  else
    let w := w.emit (Event.stdout (qs "Falkon: Migrating config from QupZilla..."))
    w.withFs (E.copyRecursively w.fs E.qzConfig E.config)

/-- `ProfileManager::initConfigDir()`.  `setPermissions` changes neither the
existence nor the contents of a file and has no counterpart in the model. -/
def initConfigDir (E : Env) (w : World) : World :=
  let dir := QDir.ofPath E.config
  let w := if !QDir.dirExists w.fs dir then migrateFromQupZilla E w else w
  if QFile.fileExists w.fs (dir.filePath (qs "profiles/profiles.ini")) then w
  else
    let w := w.emit (Event.stdout (qs "Falkon: Creating new profile directory"))
    let w := if !QDir.dirExists w.fs dir then w.withFs (QDir.mkpath w.fs dir.absolutePath).2 else w
    let w := w.withFs (QDir.mkdir w.fs dir (qs "profiles")).2
    let dir := QDir.cd w.fs dir (qs "profiles")
    -- $Config/profiles
    let w := w.withFs (QFile.remove w.fs (dir.filePath (qs "profiles.ini"))).2
    let w := w.withFs (QFile.copyContent w.fs (some E.resProfilesIni) (dir.filePath (qs "profiles.ini"))).2
    let w := w.withFs (QDir.mkdir w.fs dir (qs "default")).2
    let dir := QDir.cd w.fs dir (qs "default")
    -- $Config/profiles/default
    let w := w.withFs (QFile.copyContent w.fs (some E.resBookmarksJson) (dir.filePath (qs "bookmarks.json"))).2
    w.withFs (QFile.writeAll w.fs (dir.filePath (qs "version")) E.VERSION)

/-- `ProfileManager::createProfile(profileName)`: the return code and the
state afterwards. -/
def createProfile (E : Env) (w : World) (profileName : QString) : Int × World :=
  let dir := QDir.ofPath E.profiles
  if QDir.dirExists w.fs (QDir.ofPath (dir.absolutePath ++ '/' :: profileName)) then (-1, w)
  else
    let r := QDir.mkdir w.fs dir profileName
    if !r.1 then (-2, w.withFs r.2)
    else
      let w := w.withFs r.2
      let dir := QDir.cd w.fs dir profileName
      (0, w.withFs (QFile.writeAll w.fs (dir.filePath (qs "version")) E.VERSION))

/-- `ProfileManager::startingProfile()`: the setting, `default` when unset. -/
def startingProfile (E : Env) (w : World) : QString :=
  (E.startProfileSetting w.fs).getD (qs "default")

/-- `ProfileManager::currentProfile()`. -/
def currentProfile (w : World) : QString :=
  let path := w.currentProfilePath
  mid path (lastIndexOf '/' path + 1)

/-- `ProfileManager::copyDataToProfile()`. -/
def copyDataToProfile (w : World) : World :=
  let profileDir := QDir.ofPath w.currentProfilePath
  let browseData := profileDir.filePath (qs "browsedata.db")
  if QFile.fileExists w.fs browseData then
    let browseDataBackup :=
      QzTools.ensureUniqueFilename w.fs (profileDir.filePath (qs "browsedata-backup.db"))
    let w := w.withFs (QFile.copy w.fs browseData browseDataBackup).2
    let w := w.withFs (QFile.remove w.fs browseData).2
    let settings := profileDir.filePath (qs "settings.ini")
    let w :=
      if QFile.fileExists w.fs settings then
        let settingsBackup :=
          QzTools.ensureUniqueFilename w.fs (profileDir.filePath (qs "settings-backup.ini"))
        let w := w.withFs (QFile.copy w.fs settings settingsBackup).2
        w.withFs (QFile.remove w.fs settings).2
      else w
    let sessionFile := profileDir.filePath (qs "session.dat")
    let w :=
      if QFile.fileExists w.fs sessionFile then
        let oldVersion := trimmed (QzTools.readAllFileContents w.fs (profileDir.filePath (qs "version")))
        let oldVersion := if oldVersion = [] then qs "unknown-version" else oldVersion
        let sessionBackup := QzTools.ensureUniqueFilename w.fs
          (profileDir.filePath (qs "sessions/backup-" ++ oldVersion ++ qs ".dat"))
        let w := w.withFs (QFile.copy w.fs sessionFile sessionBackup).2
        w.withFs (QFile.remove w.fs sessionFile).2
      else w
    let text := qs ("Incompatible profile version has been detected. To avoid losing your " ++
      "profile data, they were backed up in following file:<br/><br/><b>") ++
      browseDataBackup ++ qs "<br/></b>"
    w.emit (Event.warningBox (qs "Falkon: Incompatible profile version") text)
  else w

/-- `ProfileManager::updateProfile(current, profile)`. -/
def updateProfile (E : Env) (w : World) (current profile : QString) : World :=
  if current = profile then w
  else
    let prof := E.ver.parse profile
    -- Profile is from newer version than running application
    if E.ver.gt prof (E.ver.parse E.VERSION) then
      -- Only copy data when profile is not from development version
      if E.ver.revisionNumber prof ≠ 99 then copyDataToProfile w else w
    else if E.ver.lt prof (E.ver.parse (qs "1.9.0")) then
      w.emit (Event.stdout
        (qs "Falkon: Using profile from QupZilla " ++ profile ++ qs " is not supported!"))
    -- No change in 2.0
    else if E.ver.lt prof (E.ver.parse (qs "2.9.99")) then w
    -- No change in 3.1
    else if E.ver.lt prof (E.ver.parse (qs "3.0.99")) then w
    -- Nothing for now
    else w

/-- `ProfileManager::updateCurrentProfile()`. -/
def updateCurrentProfile (E : Env) (w : World) : World :=
  let profileDir := QDir.ofPath w.currentProfilePath
  let w :=
    if !QDir.dirExists w.fs profileDir then
      let newDir := QDir.ofPath (remove profileDir.path profileDir.dirName)
      w.withFs (QDir.mkdir w.fs newDir profileDir.dirName).2
    else w
  let versionFile := profileDir.filePath (qs "version")
  let w :=
    -- If file exists, just update the profile to current version
    if QFile.fileExists w.fs versionFile then
      let profileVersion := QFile.readAll w.fs versionFile
      updateProfile E w E.VERSION (trimmed profileVersion)
    else copyDataToProfile w
  w.withFs (QFile.writeAll w.fs versionFile E.VERSION)

/-- The loop of `connectDatabase` over the statements: each non-empty trimmed
statement is executed; a failed one is reported and the loop goes on.
`done` holds the statements executed so far. -/
def execStatements (E : Env) : List QString → List QString → World → World
  | [], _, w => w
  | statement :: rest, done, w =>
    let stmt := trimmed statement
    if stmt = [] then execStatements E rest done w
    else
      let w1 := w.emit (Event.sqlExec stmt)
      let w2 := if !E.execOk done stmt then
          w1.emit (Event.critical (qs "Error creating database schema"))
        else w1
      execStatements E rest (done ++ [stmt]) w2

/-- `ProfileManager::connectDatabase()`. -/
def connectDatabase (E : Env) (w : World) : World :=
  if !E.driverValid then
    w.emit (Event.critical (qs "Qt sqlite database driver is missing! Continuing without database...."))
  else
    let readOnly := E.isPrivate
    let name := w.currentProfilePath ++ qs "/browsedata.db"
    if !E.dbOpens w.fs readOnly name then
      w.emit (Event.critical (qs "Cannot open SQLite database! Continuing without database...."))
    else
      let w :=
        if (E.dbTables w.fs name).isEmpty then
          execStatements E (split ';' E.browsedataSql) [] w
        else w
      w.emit (Event.setDatabase name)

/-- `ProfileManager::initCurrentProfile(profileName)`. -/
def initCurrentProfile (E : Env) (w : World) (profileName : QString) : World :=
  let profilePath := E.profiles ++ ['/']
  let profilePath :=
    if profileName = [] then profilePath ++ startingProfile E w
    else profilePath ++ profileName
  let w := w.setCurrentProfilePath profilePath
  let w := updateCurrentProfile E w
  connectDatabase E w

end ProfileManager

/-! ## BookmarksToolbarButton -/

namespace Qt

/-- The flag `Qt::NoButton`. -/
def NoButton : Nat := 0x00000000
/-- The flag `Qt::LeftButton`. -/
def LeftButton : Nat := 0x00000001
/-- The flag `Qt::RightButton`. -/
def RightButton : Nat := 0x00000002
/-- The flag `Qt::MiddleButton`. -/
def MiddleButton : Nat := 0x00000004
/-- The flag `Qt::NoModifier`. -/
def NoModifier : Nat := 0x00000000
/-- The flag `Qt::ShiftModifier`. -/
def ShiftModifier : Nat := 0x02000000
/-- The flag `Qt::ControlModifier`. -/
def ControlModifier : Nat := 0x04000000
/-- The flag `Qt::AltModifier`. -/
def AltModifier : Nat := 0x08000000

end Qt

/-- The values of `BookmarkItem::Type`. -/
inductive ItemType where
  | Root | Url | Folder | Separator | Invalid
  deriving DecidableEq, Repr

/-- A `BookmarkItem`, as far as the button looks at it. -/
structure BookmarkItem where
  type : ItemType
  title : QString
  deriving DecidableEq, Repr

/-- `BookmarkItem::isUrl()`. -/
def BookmarkItem.isUrl (i : BookmarkItem) : Bool := i.type == ItemType.Url

/-- `BookmarkItem::isFolder()`. -/
def BookmarkItem.isFolder (i : BookmarkItem) : Bool := i.type == ItemType.Folder

/-- A main window (`QupZilla*`), by identity. -/
abbrev Window := Nat

/-- The calls the button makes to code outside of it. -/
inductive Call where
  /-- A call of `BookmarksTools::openBookmark(window, item)`. -/
  | openBookmark (window : Window) (item : BookmarkItem)
  /-- A call of `BookmarksTools::openBookmarkInNewTab(window, item)`. -/
  | openBookmarkInNewTab (window : Window) (item : BookmarkItem)
  /-- A call of `BookmarksTools::openBookmarkInNewWindow(item)`. -/
  | openBookmarkInNewWindow (item : BookmarkItem)
  /-- A call of `BookmarksTools::openFolderInTabs(window, item)`. -/
  | openFolderInTabs (window : Window) (item : BookmarkItem)
  /-- The base handler `QPushButton::mousePressEvent(event)`. -/
  | basePress
  /-- The base handler `QPushButton::mouseReleaseEvent(event)`. -/
  | baseRelease
  deriving DecidableEq, Repr

/-- A `QMouseEvent`: `buttons()`, `modifiers()` and `pos()`. -/
structure QMouseEvent where
  buttons : Nat
  modifiers : Nat
  x : Int
  y : Int
  deriving DecidableEq, Repr

/-- The button: its members, the widget size and the calls made so far. -/
structure BookmarksToolbarButton where
  m_bookmark : Option BookmarkItem
  m_window : Option Window
  m_buttons : Nat
  m_modifiers : Nat
  width : Int
  height : Int
  calls : List Call
  deriving DecidableEq, Repr

namespace BookmarksToolbarButton

/-- Record a call. -/
def call (b : BookmarksToolbarButton) (c : Call) : BookmarksToolbarButton :=
  { b with calls := b.calls ++ [c] }

/-- `rect().contains(pos)` for the widget rectangle `QRect(0, 0, width, height)`
(`QRect::contains` with `proper = false`). -/
def rectContains (b : BookmarksToolbarButton) (x y : Int) : Bool :=
  let x1 : Int := 0
  let y1 : Int := 0
  let x2 : Int := b.width - 1
  let y2 : Int := b.height - 1
  let l := if x2 < x1 - 1 then x2 else x1
  let r := if x2 < x1 - 1 then x1 else x2
  let t := if y2 < y1 - 1 then y2 else y1
  let bo := if y2 < y1 - 1 then y1 else y2
  !(x < l || x > r) && !(y < t || y > bo)

/-- `BookmarksToolbarButton::openFolder(item)`. -/
def openFolder (b : BookmarksToolbarButton) (item : BookmarkItem) : BookmarksToolbarButton :=
  match b.m_window with
  | some win => b.call (Call.openFolderInTabs win item)
  | none => b

/-- `BookmarksToolbarButton::openBookmark(item)`. -/
def openBookmark (b : BookmarksToolbarButton) (item : BookmarkItem) : BookmarksToolbarButton :=
  match b.m_window with
  | some win => b.call (Call.openBookmark win item)
  | none => b

/-- `BookmarksToolbarButton::openBookmarkInNewTab(item)`. -/
def openBookmarkInNewTab (b : BookmarksToolbarButton) (item : BookmarkItem) :
    BookmarksToolbarButton :=
  match b.m_window with
  | some win => b.call (Call.openBookmarkInNewTab win item)
  | none => b

/-- `BookmarksToolbarButton::openBookmarkInNewWindow(item)`. -/
def openBookmarkInNewWindow (b : BookmarksToolbarButton) (item : BookmarkItem) :
    BookmarksToolbarButton :=
  b.call (Call.openBookmarkInNewWindow item)

/-- `BookmarksToolbarButton::bookmarkActivated(item)`.  `sender` is the item
carried by `sender()` when that is a `QAction`. -/
def bookmarkActivated (b : BookmarksToolbarButton) (sender : Option BookmarkItem)
    (item : BookmarkItem) : BookmarksToolbarButton :=
  openBookmark b (sender.getD item)

/-- `BookmarksToolbarButton::bookmarkCtrlActivated(item)`. -/
def bookmarkCtrlActivated (b : BookmarksToolbarButton) (sender : Option BookmarkItem)
    (item : BookmarkItem) : BookmarksToolbarButton :=
  openBookmarkInNewTab b (sender.getD item)

/-- `BookmarksToolbarButton::bookmarkShiftActivated(item)`. -/
def bookmarkShiftActivated (b : BookmarksToolbarButton) (sender : Option BookmarkItem)
    (item : BookmarkItem) : BookmarksToolbarButton :=
  openBookmarkInNewWindow b (sender.getD item)

/-- `BookmarksToolbarButton::mousePressEvent(event)`. -/
def mousePressEvent (b : BookmarksToolbarButton) (event : QMouseEvent) :
    BookmarksToolbarButton :=
  let b := { b with m_buttons := event.buttons, m_modifiers := event.modifiers }
  match b.m_bookmark with
  | some bm =>
    if bm.isFolder ∧ event.buttons = Qt.LeftButton ∧ event.modifiers = Qt.ControlModifier then
      openFolder b bm
    else b.call Call.basePress
  | none => b.call Call.basePress

/-- The first statement of `mouseReleaseEvent`: the dispatch on the bookmark
and on the recorded buttons and modifiers.  The handler runs from the event
loop and not as a slot, so `sender()` is null in the three activation slots it
calls. -/
def releaseDispatch (b : BookmarksToolbarButton) (event : QMouseEvent) :
    BookmarksToolbarButton :=
  match b.m_bookmark with
  | some bm =>
    if b.rectContains event.x event.y then
      if bm.isUrl then
        if b.m_buttons = Qt.LeftButton ∧ b.m_modifiers = Qt.NoModifier then
          bookmarkActivated b none bm
        else if b.m_buttons = Qt.LeftButton ∧ b.m_modifiers = Qt.ShiftModifier then
          bookmarkShiftActivated b none bm
        else if b.m_buttons = Qt.MiddleButton ∨ b.m_modifiers = Qt.ControlModifier then
          bookmarkCtrlActivated b none bm
        else b
      else if bm.isFolder ∧ b.m_buttons = Qt.MiddleButton then
        openFolder b bm
      else b
    else b
  | none => b

/-- `BookmarksToolbarButton::mouseReleaseEvent(event)`: the dispatch, the
reset of the recorded buttons and modifiers, and the base class handler. -/
def mouseReleaseEvent (b : BookmarksToolbarButton) (event : QMouseEvent) :
    BookmarksToolbarButton :=
  let b1 := releaseDispatch b event
  let b2 := { b1 with m_buttons := Qt.NoButton, m_modifiers := Qt.NoModifier }
  b2.call Call.baseRelease

end BookmarksToolbarButton

/-! ## A concrete environment, to run the functions on examples -/

/-- Decimal reading of a version component; `none` when it is not a number. -/
def parseNat (s : QString) : Option Nat :=
  if s = [] ∨ s.any (fun c => !c.isDigit) then none
  else some (s.foldl (fun n c => 10 * n + (c.toNat - 48)) 0)

/-- A version number `major.minor.revision`. -/
structure Triple where
  isValid : Bool
  majorVersion : Int
  minorVersion : Int
  revisionNumber : Int
  deriving DecidableEq, Repr

/-- Reads `major.minor.revision`; everything else is the invalid `0.0.0`. -/
def Triple.parse (s : QString) : Triple :=
  match (split '.' s).map parseNat with
  | [some a, some b, some c] => ⟨true, a, b, c⟩
  | _ => ⟨false, 0, 0, 0⟩

/-- Field by field, major first. -/
def Triple.lt (a b : Triple) : Bool :=
  if a.majorVersion ≠ b.majorVersion then a.majorVersion < b.majorVersion
  else if a.minorVersion ≠ b.minorVersion then a.minorVersion < b.minorVersion
  else if a.revisionNumber ≠ b.revisionNumber then a.revisionNumber < b.revisionNumber
  else false

/-- Modelled from the spec: the class `Updater::Version` is outside the
sources at hand; the spec speaks of "a linear version-number comparison",
read here as the comparison of `major.minor.revision` triples.  It serves to
run the functions on examples; the general theorems hold for every
`VersionOps`. -/
def dottedVersion : VersionOps where
  Ver := Triple
  parse := Triple.parse
  gt := fun a b => a ≠ b && !(Triple.lt a b)
  lt := Triple.lt
  revisionNumber := Triple.revisionNumber

/-- An application of version 3.0.0 with its data under `/cfg`, an SQLite driver
that works and a schema of two statements. -/
def sampleEnv : Env where
  VERSION := qs "3.0.0"
  config := qs "/cfg"
  profiles := qs "/cfg/profiles"
  ver := dottedVersion
  isPortable := false
  isPrivate := false
  qzConfig := qs "/qupzilla"
  copyRecursively := fun fs _ _ => fs
  resProfilesIni := qs "[Profiles]\nstartProfile=default\n"
  resBookmarksJson := qs "\x7b\x7d"
  browsedataSql := qs "CREATE TABLE a (x);\n\nCREATE TABLE b (y);\n"
  startProfileSetting := fun _ => none
  driverValid := true
  dbOpens := fun _ _ _ => true
  dbTables := fun _ _ => []
  execOk := fun _ _ => true

/-- Directory entry helper for example states. -/
def dirAt (s : String) : Path × Node := (pathOf (qs s), Node.dir)

/-- File entry helper for example states. -/
def fileAt (s : String) (c : String) : Path × Node := (pathOf (qs s), Node.file (qs c))

/-! ## Clean absolute paths -/

/-- A proper name of a path: not empty, not `.`, not `..`, and without a
slash. -/
def Plain (c : QString) : Prop := c ≠ [] ∧ c ≠ ['.'] ∧ c ≠ ['.', '.'] ∧ '/' ∉ c

instance (c : QString) : Decidable (Plain c) := by unfold Plain; infer_instance

/-- The clean absolute path string of a node: `/` for the root, else the
names with a slash before each. -/
def render (p : Path) : QString := '/' :: joinNames p

/-- A clean absolute path string, as the data paths of the application are:
it is the clean path of the names between its slashes, none of which is `.`
or `..`. -/
def CleanAbsolute (s : QString) : Prop :=
  s = render (pathOf s) ∧ ∀ c ∈ pathOf s, c ≠ ['.'] ∧ c ≠ ['.', '.']

instance (s : QString) : Decidable (CleanAbsolute s) := by unfold CleanAbsolute; infer_instance

/-- The place a name leads to from below the directory `p`. -/
def below (fs : FS) (p : Path) (name : QString) : Option Path :=
  (walk fs [] p).bind (fun q => walk fs q (split '/' name))

/-- Every directory on the way to `p` exists: all proper prefixes of `p` are
directories. -/
def Reach (fs : FS) (p : Path) : Prop := ∀ k < p.length, fs.isDir (p.take k) = true

/-- The directory `<Profiles>/name` exists: the value of
`QDir(<Profiles> + '/' + name).exists()`. -/
def profileDirExists (E : Env) (fs : FS) (name : QString) : Bool :=
  QDir.dirExists fs (QDir.ofPath (E.profiles ++ '/' :: name))

namespace ProfileManager

end ProfileManager

/-! ## Definitions used to state the claims -/

/-- The statements handed to `QSqlQuery::exec`, in order. -/
def executed (evs : List Event) : List QString :=
  evs.filterMap (fun e => match e with
    | Event.sqlExec s => some s
    | _ => none)

/-- The schema as the claim words it: the pieces of the file between
semicolons, each trimmed, the empty ones left out. -/
def schemaStatements (sql : QString) : List QString :=
  ((split ';' sql).map trimmed).filter (fun s => s ≠ [])

namespace BookmarksToolbarButton

/-- The decision table of a release, in the words of the claim, with the one
addition that the three calls which need a main window are made only when
`m_window` is set. -/
def releaseTable (bookmark : Option BookmarkItem) (window : Option Window) (inside : Bool)
    (buttons modifiers : Nat) : List Call :=
  match bookmark with
  | none => []
  | some bm =>
    if inside = false then []
    else if bm.type = ItemType.Url then
      if buttons = Qt.LeftButton ∧ modifiers = Qt.NoModifier then
        (window.map (fun win => Call.openBookmark win bm)).toList
      else if buttons = Qt.LeftButton ∧ modifiers = Qt.ShiftModifier then
        [Call.openBookmarkInNewWindow bm]
      else if buttons = Qt.MiddleButton ∨ modifiers = Qt.ControlModifier then
        (window.map (fun win => Call.openBookmarkInNewTab win bm)).toList
      else []
    else if bm.type = ItemType.Folder then
      if buttons = Qt.MiddleButton then
        (window.map (fun win => Call.openFolderInTabs win bm)).toList
      else []
    else []

end BookmarksToolbarButton

/-! ## Example states -/

/-- The configuration exists, the profile `pro` does not. -/
def missingProfileWorld : World :=
  ⟨[dirAt "/cfg", dirAt "/cfg/profiles"], qs "/cfg/profiles/pro", []⟩

/-- The profile `default` with a database and a session file, and no
directory `sessions`. -/
def sessionWorld : World :=
  ⟨[dirAt "/cfg", dirAt "/cfg/profiles", dirAt "/cfg/profiles/default",
    fileAt "/cfg/profiles/default/browsedata.db" "DB",
    fileAt "/cfg/profiles/default/session.dat" "SESSION"],
   qs "/cfg/profiles/default", []⟩

/-- An existing configuration: `profiles/profiles.ini` is there. -/
def configuredWorld : World :=
  ⟨[dirAt "/cfg", dirAt "/cfg/profiles", fileAt "/cfg/profiles/profiles.ini" "[Profiles]"],
   qs "/cfg/profiles/default", []⟩

/-- A button for a URL bookmark, 100 by 24, pressed with the left button and
no modifier, and with no main window set (the state the constructor leaves
`m_window` in). -/
def urlButtonNoWindow : BookmarksToolbarButton :=
  ⟨some ⟨ItemType.Url, qs "Home"⟩, none, Qt.LeftButton, Qt.NoModifier, 100, 24, []⟩

/-! ## Strings -/

theorem lastIndexOf_ge (ch : Char) (s : QString) : -1 ≤ lastIndexOf ch s := by
  induction s with
  | nil => simp [lastIndexOf]
  | cons c cs ih =>
    simp only [lastIndexOf]
    split_ifs <;> omega

theorem lastIndexOf_of_not_mem (ch : Char) (s : QString) (h : ch ∉ s) :
    lastIndexOf ch s = -1 := by
  induction s with
  | nil => simp [lastIndexOf]
  | cons c cs ih =>
    simp only [List.mem_cons, not_or] at h
    have hc : c ≠ ch := fun e => h.1 e.symm
    simp [lastIndexOf, ih h.2, hc]

theorem lastIndexOf_append (ch : Char) (a b : QString) (h : ch ∉ b) :
    lastIndexOf ch (a ++ ch :: b) = a.length := by
  induction a with
  | nil => simp [lastIndexOf, lastIndexOf_of_not_mem ch b h]
  | cons c cs ih =>
    have hne : (cs.length : Int) ≠ -1 := by omega
    show (if lastIndexOf ch (cs ++ ch :: b) ≠ -1 then lastIndexOf ch (cs ++ ch :: b) + 1
      else if c = ch then 0 else -1) = ((cs.length + 1 : Nat) : Int)
    rw [ih, if_pos hne]
    push_cast
    rfl

theorem mid_whole (s : QString) : mid s 0 = s := by
  simp [mid]

theorem mid_append (a b : QString) (c : Char) :
    mid (a ++ c :: b) ((a.length : Int) + 1) = b := by
  have h1 : ¬ ((a.length : Int) + 1 > ((a ++ c :: b).length : Int)) := by
    simp only [List.length_append, List.length_cons]; push_cast; omega
  have h2 : ((a.length : Int) + 1).toNat = a.length + 1 := by omega
  simp only [mid, h1, if_false, h2]
  have : a ++ c :: b = (a ++ [c]) ++ b := by simp
  rw [this]
  exact List.drop_left' (by simp)

/-! ## The bound of the removal loop -/

theorem indexOfFrom_some (pat s : QString) (i j : Nat) (hp : pat ≠ [])
    (h : indexOfFrom pat s i = some j) : i ≤ j ∧ (j - i) + pat.length ≤ s.length := by
  induction s generalizing i with
  | nil => simp [indexOfFrom, hp] at h
  | cons c cs ih =>
    simp only [indexOfFrom] at h
    by_cases hs : startsWith pat (c :: cs) = true
    · simp only [hs, if_true, Option.some.injEq] at h
      subst h
      have := List.IsPrefix.length_le (List.isPrefixOf_iff_prefix.mp hs)
      simp only [List.length_cons] at this ⊢
      omega
    · simp only [hs, Bool.false_eq_true, if_false] at h
      have := ih (i + 1) h
      simp only [List.length_cons]
      omega

/-- Every round of the loop shortens the string, so any fuel from the length
of the string on gives the same result: the loop of `remove` never stops for
lack of fuel. -/
theorem removeLoop_fuel (pat : QString) (hp : pat ≠ []) (n m : Nat) (s : QString) (i : Nat)
    (hn : s.length ≤ n) (hm : s.length ≤ m) :
    removeLoop pat n s i = removeLoop pat m s i := by
  induction n generalizing m s i with
  | zero =>
    have hs : s = [] := List.length_eq_zero.mp (by omega)
    subst hs
    cases m with
    | zero => rfl
    | succ m => simp [removeLoop, indexOfFrom, hp]
  | succ n ih =>
    cases m with
    | zero =>
      have hs : s = [] := List.length_eq_zero.mp (by omega)
      subst hs
      simp [removeLoop, indexOfFrom, hp]
    | succ m =>
      simp only [removeLoop]
      cases h : indexOfFrom pat (s.drop i) i with
      | none => rfl
      | some j =>
        have hb := indexOfFrom_some pat (s.drop i) i j hp h
        have hl : 0 < pat.length := List.length_pos.mpr hp
        simp only [List.length_drop] at hb
        apply ih
        · simp only [List.length_append, List.length_take, List.length_drop]; omega
        · simp only [List.length_append, List.length_take, List.length_drop]; omega

/-! ## Path resolution -/

theorem split_ne_nil (sep : Char) (s : QString) : split sep s ≠ [] := by
  cases s with
  | nil => simp [split]
  | cons c cs =>
    simp only [split]
    split_ifs
    · simp
    · split <;> simp

theorem split_append_sep (sep : Char) (a b : QString) :
    split sep (a ++ sep :: b) = split sep a ++ split sep b := by
  induction a with
  | nil => simp [split]
  | cons c cs ih =>
    by_cases hc : c = sep
    · simp [split, hc, ih]
    · cases hs : split sep cs with
      | nil => exact absurd hs (split_ne_nil sep cs)
      | cons h t =>
        have e1 : split sep (c :: cs) = (c :: h) :: t := by simp [split, hc, hs]
        have e2 : split sep (c :: (cs ++ sep :: b)) = (c :: h) :: (t ++ split sep b) := by
          simp [split, hc, ih, hs]
        rw [List.cons_append, e2, e1]
        rfl

theorem split_of_not_mem (sep : Char) (c : QString) (h : sep ∉ c) : split sep c = [c] := by
  induction c with
  | nil => rfl
  | cons x xs ih =>
    simp only [List.mem_cons, not_or] at h
    have hx : x ≠ sep := fun e => h.1 e.symm
    simp [split, hx, ih h.2]

theorem not_mem_of_mem_split (sep : Char) (s : QString) :
    ∀ c ∈ split sep s, sep ∉ c := by
  induction s with
  | nil => simp [split]
  | cons x xs ih =>
    by_cases hx : x = sep
    · simp only [split, hx, if_true, List.mem_cons]
      rintro c (rfl | hc)
      · simp
      · exact ih c hc
    · cases hs : split sep xs with
      | nil => exact absurd hs (split_ne_nil sep xs)
      | cons h t =>
        simp only [split, hx, if_false, hs, List.mem_cons]
        rw [hs] at ih
        rintro c (rfl | hc)
        · intro hm
          rcases List.mem_cons.mp hm with e | e
          · exact hx e.symm
          · exact ih h (List.mem_cons_self _ _) e
        · exact ih c (List.mem_cons_of_mem _ hc)

theorem split_joinNames (p : Path) (hp : ∀ c ∈ p, '/' ∉ c) (hne : p ≠ []) :
    split '/' (joinNames p) = p := by
  induction p with
  | nil => exact absurd rfl hne
  | cons c cs ih =>
    cases cs with
    | nil => simpa [joinNames] using split_of_not_mem '/' c (hp c (List.mem_cons_self _ _))
    | cons d ds =>
      have h1 := split_of_not_mem '/' c (hp c (List.mem_cons_self _ _))
      have h2 := ih (fun x hx => hp x (List.mem_cons_of_mem _ hx)) (by simp)
      simp only [joinNames, split_append_sep, h1, h2]
      rfl

theorem walk_root_empty (fs : FS) (cs : List QString) : walk fs [] ([] :: cs) = walk fs [] cs := by
  simp [walk, FS.isDir, FS.node]

/-- The names of a clean absolute path string lead where the names of the node
lead. -/
theorem walk_split_render (fs : FS) (p : Path) (hp : ∀ c ∈ p, '/' ∉ c) (rest : List QString) :
    walk fs [] (split '/' (render p) ++ rest) = walk fs [] (p ++ rest) := by
  cases p with
  | nil =>
    have : split '/' (render []) = [[], []] := by decide
    rw [this]
    simp [walk, FS.isDir, FS.node]
  | cons c cs =>
    have h := split_joinNames (c :: cs) hp (by simp)
    have : split '/' (render (c :: cs)) = [] :: (c :: cs) := by
      simp only [render, split, if_true, h]
    rw [this, List.cons_append, walk_root_empty]

theorem walk_append (fs : FS) (cur : Path) (xs ys : List QString) :
    walk fs cur (xs ++ ys) = (walk fs cur xs).bind (fun p => walk fs p ys) := by
  induction xs generalizing cur with
  | nil => simp [walk]
  | cons c cs ih =>
    simp only [List.cons_append, walk]
    split_ifs <;> simp [ih]

theorem walk_mono (fs fs2 : FS) (h : ∀ p, fs.isDir p = true → fs2.isDir p = true)
    (cur : Path) (cs : List QString) (t : Path) (hw : walk fs cur cs = some t) :
    walk fs2 cur cs = some t := by
  induction cs generalizing cur with
  | nil => simpa [walk] using hw
  | cons c cs ih =>
    simp only [walk] at hw ⊢
    by_cases hd : fs.isDir cur = true
    · have hd2 := h cur hd
      simp only [hd, hd2, Bool.true_eq_false, if_false] at hw ⊢
      split_ifs at hw ⊢ <;> exact ih _ hw
    · simp [hd] at hw

theorem walk_congr (fs fs2 : FS) (h : ∀ p, fs2.isDir p = fs.isDir p)
    (cur : Path) (cs : List QString) : walk fs2 cur cs = walk fs cur cs := by
  induction cs generalizing cur with
  | nil => rfl
  | cons c cs ih =>
    simp only [walk, h cur]
    split_ifs <;> simp [ih]

theorem walk_plain_cons (fs : FS) (cur : Path) (c : QString) (cs : List QString) (hc : Plain c) :
    walk fs cur (c :: cs) = if fs.isDir cur = true then walk fs (cur ++ [c]) cs else none := by
  obtain ⟨h1, h2, h3, _⟩ := hc
  simp only [walk, h1, h2, h3, false_or, if_false]
  cases fs.isDir cur <;> simp

theorem walk_plain_eq (fs : FS) (cur pl t : Path) (hpl : ∀ c ∈ pl, Plain c)
    (hw : walk fs cur pl = some t) : t = cur ++ pl := by
  induction pl generalizing cur with
  | nil => simp [walk] at hw; simp [hw]
  | cons c cs ih =>
    rw [walk_plain_cons fs cur c cs (hpl c (List.mem_cons_self _ _))] at hw
    split_ifs at hw
    have := ih (cur ++ [c]) (fun x hx => hpl x (List.mem_cons_of_mem _ hx)) hw
    simp [this]

theorem walk_plain_some (fs : FS) (cur pl : Path) (hpl : ∀ c ∈ pl, Plain c)
    (hd : ∀ k < pl.length, fs.isDir (cur ++ pl.take k) = true) :
    walk fs cur pl = some (cur ++ pl) := by
  induction pl generalizing cur with
  | nil => simp [walk]
  | cons c cs ih =>
    rw [walk_plain_cons fs cur c cs (hpl c (List.mem_cons_self _ _))]
    have h0 : fs.isDir cur = true := by simpa using hd 0 (by simp)
    rw [if_pos h0, ih (cur ++ [c]) (fun x hx => hpl x (List.mem_cons_of_mem _ hx))]
    · simp
    · intro k hk
      have := hd (k + 1) (by simpa using hk)
      simpa using this

theorem walk_plain_dirs (fs : FS) (cur pl t : Path) (hpl : ∀ c ∈ pl, Plain c)
    (hw : walk fs cur pl = some t) :
    ∀ k < pl.length, fs.isDir (cur ++ pl.take k) = true := by
  induction pl generalizing cur with
  | nil => intro k hk; simp at hk
  | cons c cs ih =>
    rw [walk_plain_cons fs cur c cs (hpl c (List.mem_cons_self _ _))] at hw
    split_ifs at hw with h0
    intro k hk
    cases k with
    | zero => simpa using h0
    | succ k =>
      have := ih (cur ++ [c]) (fun x hx => hpl x (List.mem_cons_of_mem _ hx)) hw k
        (by simpa using hk)
      simpa using this

/-- The way along proper names exists exactly when every directory on it
does. -/
theorem walk_plain_root (fs : FS) (p : Path) (hp : ∀ c ∈ p, Plain c) :
    (Reach fs p → walk fs [] p = some p) ∧ (∀ t, walk fs [] p = some t → t = p ∧ Reach fs p) := by
  constructor
  · intro h
    simpa using walk_plain_some fs [] p hp (by simpa [Reach] using h)
  · intro t ht
    refine ⟨by simpa using walk_plain_eq fs [] p t hp ht, ?_⟩
    simpa [Reach] using walk_plain_dirs fs [] p t hp ht

theorem reach_walk (fs : FS) (cur : Path) (cs : List QString) (t : Path)
    (hr : Reach fs cur) (hw : walk fs cur cs = some t) : Reach fs t := by
  induction cs generalizing cur with
  | nil => simp [walk] at hw; rw [← hw]; exact hr
  | cons c cs ih =>
    simp only [walk] at hw
    by_cases hd : fs.isDir cur = true
    · simp only [hd, Bool.true_eq_false, if_false] at hw
      split_ifs at hw
      · exact ih cur hr hw
      · refine ih _ ?_ hw
        intro k hk
        have hk2 : k < cur.length := by
          simp only [List.length_dropLast] at hk; omega
        have := hr k hk2
        rwa [List.dropLast_eq_take, List.take_take, min_eq_left (by omega)]
      · refine ih _ ?_ hw
        intro k hk
        simp only [List.length_append, List.length_singleton] at hk
        by_cases hk2 : k < cur.length
        · rw [List.take_append_of_le_length (by omega)]
          exact hr k hk2
        · have : k = cur.length := by omega
          subst this
          simpa using hd
    · simp [hd] at hw

theorem plain_walk (fs : FS) (cur : Path) (cs : List QString) (t : Path)
    (hcur : ∀ c ∈ cur, Plain c) (hcs : ∀ c ∈ cs, '/' ∉ c)
    (hw : walk fs cur cs = some t) : ∀ c ∈ t, Plain c := by
  induction cs generalizing cur with
  | nil => simp [walk] at hw; rw [← hw]; exact hcur
  | cons c cs ih =>
    have hcs2 : ∀ x ∈ cs, '/' ∉ x := fun x hx => hcs x (List.mem_cons_of_mem _ hx)
    simp only [walk] at hw
    by_cases hd : fs.isDir cur = true
    · simp only [hd, Bool.true_eq_false, if_false] at hw
      split_ifs at hw with h1 h2
      · exact ih cur hcur hcs2 hw
      · exact ih _ (fun x hx => hcur x (List.mem_of_mem_dropLast hx)) hcs2 hw
      · refine ih _ ?_ hcs2 hw
        intro x hx
        rcases List.mem_append.mp hx with hx | hx
        · exact hcur x hx
        · simp only [List.mem_singleton] at hx
          subst hx
          simp only [not_or] at h1
          exact ⟨h1.1, h1.2, h2, hcs x (List.mem_cons_self _ _)⟩
    · simp [hd] at hw

theorem cleanStep_fold_escaped (cs : List QString) (p : Path) :
    (cs.foldl cleanStep (p, true)).2 = true := by
  induction cs generalizing p with
  | nil => rfl
  | cons c cs ih =>
    simp only [List.foldl_cons, cleanStep]
    split_ifs <;> exact ih _

/-- Cleaning on the string agrees with the way the operating system goes, as
long as no `..` is left without a name to cancel. -/
theorem clean_eq_walk (fs : FS) (cur : Path) (cs : List QString) (t : Path)
    (hcur : ∀ c ∈ cur, Plain c) (hcs : ∀ c ∈ cs, '/' ∉ c)
    (hw : walk fs cur cs = some t)
    (hok : (cs.foldl cleanStep (cur, false)).2 = false) :
    (cs.foldl cleanStep (cur, false)).1 = t := by
  induction cs generalizing cur with
  | nil => simpa [walk] using hw
  | cons c cs ih =>
    have hcs2 : ∀ x ∈ cs, '/' ∉ x := fun x hx => hcs x (List.mem_cons_of_mem _ hx)
    simp only [walk] at hw
    by_cases hd : fs.isDir cur = true
    · simp only [hd, Bool.true_eq_false, if_false] at hw
      simp only [List.foldl_cons, cleanStep] at hok ⊢
      split_ifs at hw hok ⊢ with h1 h2 h3
      · exact ih cur hcur hcs2 hw hok
      · exact ih _ (fun x hx => hcur x (List.mem_of_mem_dropLast hx)) hcs2 hw hok
      · rw [cleanStep_fold_escaped] at hok
        exact absurd hok (by simp)
      · refine ih _ ?_ hcs2 hw hok
        intro x hx
        rcases List.mem_append.mp hx with hx | hx
        · exact hcur x hx
        · simp only [List.mem_singleton] at hx
          subst hx
          simp only [not_or] at h1
          exact ⟨h1.1, h1.2, h2, hcs x (List.mem_cons_self _ _)⟩
    · simp [hd] at hw

/-! ## Clean absolute paths -/

theorem pathOf_plain (s : QString) (h : CleanAbsolute s) : ∀ c ∈ pathOf s, Plain c := by
  intro c hc
  have hd := h.2 c hc
  simp only [pathOf, List.mem_filter, decide_eq_true_eq] at hc
  exact ⟨hc.2, hd.1, hd.2, not_mem_of_mem_split '/' s c hc.1⟩

theorem joinNames_getLast (p : Path) (hp : ∀ c ∈ p, Plain c) (hne : p ≠ []) :
    joinNames p ≠ [] ∧ (joinNames p).getLast? ≠ some '/' := by
  induction p with
  | nil => exact absurd rfl hne
  | cons c cs ih =>
    obtain ⟨h1, _, _, h4⟩ := hp c (List.mem_cons_self _ _)
    cases cs with
    | nil =>
      refine ⟨by simpa [joinNames] using h1, ?_⟩
      simp only [joinNames]
      intro h
      exact h4 (List.mem_of_getLast?_eq_some h)
    | cons d ds =>
      have := ih (fun x hx => hp x (List.mem_cons_of_mem _ hx)) (by simp)
      refine ⟨by simp [joinNames], ?_⟩
      simp only [joinNames]
      rw [List.getLast?_append, List.getLast?_cons]
      cases hj : (joinNames (d :: ds)).getLast? with
      | none => exact absurd (List.getLast?_eq_none_iff.mp hj) this.1
      | some x =>
        rw [hj] at this
        simpa using this.2

theorem render_getLast (p : Path) (hp : ∀ c ∈ p, Plain c) (hne : p ≠ []) :
    (render p).getLast? ≠ some '/' := by
  have := joinNames_getLast p hp hne
  unfold render
  rw [List.getLast?_cons]
  cases hj : (joinNames p).getLast? with
  | none => exact absurd (List.getLast?_eq_none_iff.mp hj) this.1
  | some x =>
    rw [hj] at this
    simpa using this.2

theorem ofPath_render (p : Path) (hp : ∀ c ∈ p, Plain c) : QDir.ofPath (render p) = ⟨render p⟩ := by
  unfold QDir.ofPath
  rw [if_neg (by simp [render])]
  by_cases hne : p = []
  · subst hne; rfl
  · rw [if_neg]
    intro h
    exact render_getLast p hp hne h.2

theorem cleanStep_fold_plain (pl : Path) (hpl : ∀ c ∈ pl, Plain c) (cur : Path) (e : Bool) :
    pl.foldl cleanStep (cur, e) = (cur ++ pl, e) := by
  induction pl generalizing cur with
  | nil => simp
  | cons c cs ih =>
    obtain ⟨h1, h2, h3, _⟩ := hpl c (List.mem_cons_self _ _)
    simp only [List.foldl_cons, cleanStep, h1, h2, h3, false_or, if_false]
    rw [ih (fun x hx => hpl x (List.mem_cons_of_mem _ hx))]
    simp

theorem split_render (p : Path) (hp : ∀ c ∈ p, Plain c) :
    split '/' (render p) = if p = [] then [[], []] else [] :: p := by
  cases p with
  | nil => decide
  | cons c cs =>
    have h := split_joinNames (c :: cs) (fun x hx => (hp x hx).2.2.2) (by simp)
    simp only [render, split, if_true, h]
    simp

theorem fold_split_render (p : Path) (hp : ∀ c ∈ p, Plain c) (rest : List QString) :
    (split '/' (render p) ++ rest).foldl cleanStep ([], false) =
      rest.foldl cleanStep (p, false) := by
  rw [split_render p hp, List.foldl_append]
  by_cases hne : p = []
  · subst hne
    simp [cleanStep]
  · rw [if_neg hne]
    simp only [List.foldl_cons]
    have : cleanStep ([], false) [] = ([], false) := by simp [cleanStep]
    rw [this, cleanStep_fold_plain p hp]
    simp

theorem cleanPath_render (p : Path) (hp : ∀ c ∈ p, Plain c) :
    cleanPath (render p) = (render p, true) := by
  have h := fold_split_render p hp []
  simp only [List.append_nil, List.foldl_nil] at h
  unfold cleanPath
  rw [if_neg (by simp [render]), h]
  simp [render]

theorem absolutePath_render (p : Path) (hp : ∀ c ∈ p, Plain c) :
    QDir.absolutePath ⟨render p⟩ = render p := by
  have h : QDir.isAbsolutePath (render p) = true := by simp [QDir.isAbsolutePath, render]
  simp only [QDir.absolutePath, h, if_true, cleanPath_render p hp]

theorem resolve_of_slash (fs : FS) (s : QString) :
    resolve fs ('/' :: s) = walk fs [] (split '/' ('/' :: s)) := by
  simp [resolve, resolveNative, isResourcePath]

/-- A path string below a clean absolute path leads where the name leads from
the node of that path. -/
theorem resolve_render_slash (fs : FS) (p : Path) (hp : ∀ c ∈ p, Plain c) (name : QString) :
    resolve fs (render p ++ '/' :: name) = below fs p name := by
  have : render p ++ '/' :: name = '/' :: (joinNames p ++ '/' :: name) := rfl
  rw [this, resolve_of_slash, ← this, split_append_sep,
    walk_split_render fs p (fun x hx => (hp x hx).2.2.2), walk_append]
  rfl

theorem resolve_render (fs : FS) (p : Path) (hp : ∀ c ∈ p, Plain c) :
    resolve fs (render p) = walk fs [] p := by
  have h := walk_split_render fs p (fun x hx => (hp x hx).2.2.2) []
  simp only [List.append_nil] at h
  rw [← h]
  exact resolve_of_slash fs (joinNames p)

/-! ## Trailing slashes -/

theorem chopRev_spec (r : QString) : ∃ k, r = List.replicate k '/' ++ chopRev r := by
  induction r with
  | nil => exact ⟨0, rfl⟩
  | cons c cs ih =>
    cases cs with
    | nil => exact ⟨0, rfl⟩
    | cons d ds =>
      by_cases hc : c = '/'
      · obtain ⟨k, hk⟩ := ih
        refine ⟨k + 1, ?_⟩
        simp only [chopRev, hc, if_true, List.replicate_succ, List.cons_append]
        rw [← hk]
      · exact ⟨0, by simp [chopRev, hc]⟩

theorem chopRev_ne_nil (r : QString) (h : r ≠ []) : chopRev r ≠ [] := by
  induction r with
  | nil => exact absurd rfl h
  | cons c cs ih =>
    cases cs with
    | nil => simp [chopRev]
    | cons d ds =>
      simp only [chopRev]
      split_ifs
      · exact ih (by simp)
      · simp

theorem chopSlashes_spec (s : QString) : ∃ k, s = chopSlashes s ++ List.replicate k '/' := by
  obtain ⟨k, hk⟩ := chopRev_spec s.reverse
  refine ⟨k, ?_⟩
  have := congrArg List.reverse hk
  simpa [chopSlashes] using this

theorem chopSlashes_ne_nil (s : QString) (h : s ≠ []) : chopSlashes s ≠ [] := by
  unfold chopSlashes
  intro h0
  have := chopRev_ne_nil s.reverse (by simpa using h)
  exact this (by simpa using h0)

theorem split_append_slashes (c : QString) (k : Nat) :
    split '/' (c ++ List.replicate k '/') = split '/' c ++ List.replicate k [] := by
  induction k generalizing c with
  | zero => simp
  | succ k ih =>
    have h1 : c ++ List.replicate (k + 1) '/' = (c ++ ['/']) ++ List.replicate k '/' := by
      simp [List.replicate_succ]
    have h2 : split '/' (c ++ ['/']) = split '/' c ++ [[]] := by
      simpa [split] using split_append_sep '/' c []
    rw [h1, ih, h2, List.append_assoc]
    congr 1

theorem walk_empties (fs : FS) (t : Path) (k : Nat) (hd : fs.isDir t = true) :
    walk fs t (List.replicate k []) = some t := by
  induction k with
  | zero => rfl
  | succ k ih => simp [List.replicate_succ, walk, hd, ih]

/-- What `mkdir(2)` resolved without the trailing slashes is where the whole
string leads, once the directory is there. -/
theorem resolveNative_unchop (fs fs2 : FS) (s : QString) (t : Path)
    (hm : ∀ p, fs.isDir p = true → fs2.isDir p = true)
    (hr : resolveNative fs (chopSlashes s) = some t) (hd : fs2.isDir t = true) :
    resolveNative fs2 s = some t := by
  have hc : chopSlashes s ≠ [] := by
    intro h0; simp [resolveNative, h0] at hr
  have hs : s ≠ [] := by
    intro h0; subst h0; exact hc rfl
  obtain ⟨k, hk⟩ := chopSlashes_spec s
  simp only [resolveNative, hc, if_false] at hr
  simp only [resolveNative, hs, if_false]
  rw [hk, split_append_slashes, walk_append, walk_mono fs fs2 hm _ _ _ hr]
  exact walk_empties fs2 t k hd

/-! ## filePath, mkdir and cd below a clean absolute path -/

theorem filePath_render (p : Path) (hp : ∀ c ∈ p, Plain c) (name : QString)
    (hrel : QDir.isAbsolutePath name = false) (hne : name ≠ []) :
    QDir.filePath ⟨render p⟩ name =
      if p = [] then '/' :: name else render p ++ '/' :: name := by
  unfold QDir.filePath
  simp only [hrel, Bool.false_eq_true, if_false, hne]
  by_cases h0 : p = []
  · subst h0
    simp [render, joinNames]
  · rw [if_neg h0, if_pos]
    exact ⟨by simp [render], render_getLast p hp h0⟩

theorem below_root (fs : FS) (name : QString) :
    walk fs [] (split '/' ('/' :: name)) = below fs [] name := by
  have h : split '/' ('/' :: name) = [] :: split '/' name := by simp [split]
  rw [h, walk_root_empty]
  simp [below, walk]

theorem walk_filePath_render (fs : FS) (p : Path) (hp : ∀ c ∈ p, Plain c) (name : QString)
    (hrel : QDir.isAbsolutePath name = false) (hne : name ≠ []) :
    walk fs [] (split '/' (QDir.filePath ⟨render p⟩ name)) = below fs p name := by
  rw [filePath_render p hp name hrel hne]
  by_cases h0 : p = []
  · subst h0
    rw [if_pos rfl]
    exact below_root fs name
  · rw [if_neg h0, split_append_sep,
      walk_split_render fs p (fun x hx => (hp x hx).2.2.2), walk_append]
    rfl

theorem filePath_render_head (p : Path) (hp : ∀ c ∈ p, Plain c) (name : QString)
    (hrel : QDir.isAbsolutePath name = false) (hne : name ≠ []) :
    ∃ rest, QDir.filePath ⟨render p⟩ name = '/' :: rest := by
  rw [filePath_render p hp name hrel hne]
  by_cases h0 : p = []
  · exact ⟨name, by simp [h0]⟩
  · exact ⟨joinNames p ++ '/' :: name, by simp [h0, render]⟩

theorem resolve_filePath_render (fs : FS) (p : Path) (hp : ∀ c ∈ p, Plain c) (name : QString)
    (hrel : QDir.isAbsolutePath name = false) (hne : name ≠ []) :
    resolve fs (QDir.filePath ⟨render p⟩ name) = below fs p name := by
  obtain ⟨rest, hr⟩ := filePath_render_head p hp name hrel hne
  rw [← walk_filePath_render fs p hp name hrel hne, hr]
  exact resolve_of_slash fs rest

theorem fold_filePath_render (p : Path) (hp : ∀ c ∈ p, Plain c) (name : QString)
    (hrel : QDir.isAbsolutePath name = false) (hne : name ≠ []) :
    (split '/' (QDir.filePath ⟨render p⟩ name)).foldl cleanStep ([], false) =
      (split '/' name).foldl cleanStep (p, false) := by
  rw [filePath_render p hp name hrel hne]
  by_cases h0 : p = []
  · subst h0
    simp [split, cleanStep]
  · rw [if_neg h0, split_append_sep, fold_split_render p hp]

theorem cleanPath_flag (p : Path) (hp : ∀ c ∈ p, Plain c) (name : QString) :
    (cleanPath (render p ++ '/' :: name)).2 =
      !((split '/' name).foldl cleanStep (p, false)).2 := by
  unfold cleanPath
  rw [if_neg (by simp [render]), split_append_sep, fold_split_render p hp]
  simp [render]

theorem below_some (fs : FS) (p : Path) (hp : ∀ c ∈ p, Plain c) (name : QString) (t : Path)
    (hb : below fs p name = some t) :
    walk fs [] p = some p ∧ Reach fs p ∧ walk fs p (split '/' name) = some t := by
  unfold below at hb
  cases hw : walk fs [] p with
  | none => simp [hw] at hb
  | some q =>
    obtain ⟨hq, hr⟩ := (walk_plain_root fs p hp).2 q hw
    subst hq
    simp only [hw, Option.some_bind] at hb
    exact ⟨rfl, hr, hb⟩

theorem walk_version (fs : FS) (t : Path) (hd : fs.isDir t = true) :
    walk fs t (split '/' (qs "version")) = some (t ++ [qs "version"]) := by
  have h : split '/' (qs "version") = [qs "version"] := by decide
  have hv : Plain (qs "version") := by decide
  rw [h, walk_plain_cons fs t _ _ hv, if_pos hd]
  rfl

theorem chopSlashes_id (s : QString) (h : s.getLast? ≠ some '/') : chopSlashes s = s := by
  obtain ⟨k, hk⟩ := chopSlashes_spec s
  cases k with
  | zero => simpa using hk.symm
  | succ k =>
    exfalso
    apply h
    rw [hk, List.replicate_succ', ← List.append_assoc]
    simp

theorem getLast_simple (name : QString) (hs : '/' ∉ name) (hne : name ≠ []) (a : QString) :
    (a ++ name).getLast? ≠ some '/' := by
  rw [List.getLast?_append]
  cases h : name.getLast? with
  | none => exact absurd (List.getLast?_eq_none_iff.mp h) hne
  | some x =>
    intro hx
    have hx2 : x = '/' := by simpa [Option.or] using hx
    subst hx2
    exact hs (List.mem_of_getLast?_eq_some h)

/-- For a name without a slash, the path `filePath` builds ends in that name. -/
theorem filePath_simple (p : Path) (hp : ∀ c ∈ p, Plain c) (name : QString)
    (hrel : QDir.isAbsolutePath name = false) (hne : name ≠ []) (hs : '/' ∉ name) :
    (QDir.filePath ⟨render p⟩ name).getLast? ≠ some '/' ∧
    (split '/' (QDir.filePath ⟨render p⟩ name)).getLast? = some name := by
  rw [filePath_render p hp name hrel hne]
  have hsp := split_of_not_mem '/' name hs
  by_cases h0 : p = []
  · subst h0
    simp only [if_true]
    refine ⟨?_, by simp [split, hsp]⟩
    have := getLast_simple name hs hne ['/']
    simpa using this
  · simp only [h0, if_false]
    refine ⟨?_, by rw [split_append_sep, hsp]; simp⟩
    have := getLast_simple name hs hne (render p ++ ['/'])
    simpa using this

theorem cd_newPath (p : Path) (hp : ∀ c ∈ p, Plain c) (name : QString)
    (hrel : QDir.isAbsolutePath name = false) (hne : name ≠ []) :
    (if (render p).getLast? = some '/' then render p ++ name else render p ++ '/' :: name) =
      QDir.filePath ⟨render p⟩ name := by
  rw [filePath_render p hp name hrel hne]
  by_cases h0 : p = []
  · subst h0; simp [render, joinNames]
  · rw [if_neg (render_getLast p hp h0), if_neg h0]

theorem dirExists_render (fs : FS) (t : Path) (ht : ∀ c ∈ t, Plain c) (hr : Reach fs t)
    (hd : fs.isDir t = true) : QDir.dirExists fs ⟨render t⟩ = true := by
  simp only [QDir.dirExists, resolve_render fs t ht, (walk_plain_root fs t ht).1 hr, hd]

/-- After `mkdir(name)` has made the directory `t`, `cd(name)` arrives there,
and the file `version` of the directory object is the node `version` in `t`. -/
theorem cd_version (fs : FS) (p : Path) (hp : ∀ c ∈ p, Plain c) (name : QString)
    (hrel : QDir.isAbsolutePath name = false) (hne : name ≠ []) (t : Path)
    (hb : below fs p name = some t) (hd : fs.isDir t = true)
    (hlast : ¬ ((split '/' (chopSlashes (QDir.filePath ⟨render p⟩ name))).getLast?.getD [] = ['.'] ∨
      (split '/' (chopSlashes (QDir.filePath ⟨render p⟩ name))).getLast?.getD [] = ['.', '.']))
    (hok : ((split '/' name).foldl cleanStep (p, false)).2 = false) :
    resolve fs (QDir.filePath (QDir.cd fs ⟨render p⟩ name) (qs "version")) =
      some (t ++ [qs "version"]) := by
  obtain ⟨hwp, hrp, hwn⟩ := below_some fs p hp name t hb
  have hvrel : QDir.isAbsolutePath (qs "version") = false := by decide
  have hvne : qs "version" ≠ [] := by decide
  have hrp1 : (render p) ≠ ['.'] := by simp [render]
  by_cases hs : '/' ∈ name
  · -- the new path is cleaned
    have hn1 : ¬ (name = [] ∨ name = ['.']) := by
      rintro (h | h)
      · exact hne h
      · subst h; simp at hs
    have hfold := fold_filePath_render p hp name hrel hne
    have hst := clean_eq_walk fs p (split '/' name) t hp (not_mem_of_mem_split '/' name) hwn hok
    have hcl : cleanPath (QDir.filePath ⟨render p⟩ name) = (render t, true) := by
      obtain ⟨rest, hrest⟩ := filePath_render_head p hp name hrel hne
      unfold cleanPath
      rw [if_neg (by simp [hrest]), hfold]
      simp only [hrest, List.head?_cons, if_true, hok, Bool.not_false]
      rw [hst]
      rfl
    have htp : ∀ c ∈ t, Plain c := plain_walk fs p _ t hp (not_mem_of_mem_split '/' name) hwn
    have htr : Reach fs t := reach_walk fs p _ t hrp hwn
    have hcd : QDir.cd fs ⟨render p⟩ name = ⟨render t⟩ := by
      unfold QDir.cd
      rw [if_neg hn1]
      simp only [hrel, Bool.false_eq_true, if_false, hs, true_or, if_true,
        cd_newPath p hp name hrel hne, hcl]
      have hsw : startsWith ['.', '.'] (render t) = false := by
        simp [startsWith, render, List.isPrefixOf]
      simp only [hsw, Bool.false_eq_true, if_false, Bool.true_eq_false, ofPath_render t htp,
        dirExists_render fs t htp htr hd, if_true]
    rw [hcd, resolve_filePath_render fs t htp _ hvrel hvne]
    unfold below
    rw [(walk_plain_root fs t htp).1 htr]
    exact walk_version fs t hd
  · -- the new path is taken as it is
    obtain ⟨hl1, hl2⟩ := filePath_simple p hp name hrel hne hs
    rw [chopSlashes_id _ hl1, hl2] at hlast
    simp only [Option.getD_some, not_or] at hlast
    have hn1 : ¬ (name = [] ∨ name = ['.']) := by
      rintro (h | h)
      · exact hne h
      · exact hlast.1 h
    obtain ⟨rest, hrest⟩ := filePath_render_head p hp name hrel hne
    have hw1 := walk_filePath_render fs p hp name hrel hne
    have hde : QDir.dirExists fs ⟨QDir.filePath ⟨render p⟩ name⟩ = true := by
      simp only [QDir.dirExists]
      rw [hrest, resolve_of_slash, ← hrest, hw1, hb]
      exact hd
    have hof : QDir.ofPath (QDir.filePath ⟨render p⟩ name) = ⟨QDir.filePath ⟨render p⟩ name⟩ := by
      unfold QDir.ofPath
      rw [if_neg (by simp [hrest]), if_neg (fun h => hl1 h.2)]
    have hcd : QDir.cd fs ⟨render p⟩ name = ⟨QDir.filePath ⟨render p⟩ name⟩ := by
      unfold QDir.cd
      rw [if_neg hn1]
      simp only [hrel, Bool.false_eq_true, if_false, hs, hlast.2, hrp1, or_self,
        cd_newPath p hp name hrel hne, hof, hde, if_true]
    rw [hcd]
    generalize QDir.filePath ⟨render p⟩ name = s1 at hl1 hrest hw1 ⊢
    have hfp : QDir.filePath ⟨s1⟩ (qs "version") = s1 ++ '/' :: qs "version" := by
      unfold QDir.filePath
      simp only [hvrel, Bool.false_eq_true, if_false, hvne]
      rw [if_pos ⟨by simp [hrest], hl1⟩]
    rw [hfp, hrest, List.cons_append, resolve_of_slash, ← List.cons_append, ← hrest,
      split_append_sep, walk_append, hw1, hb]
    exact walk_version fs t hd

/-! ## File-system updates -/

namespace FS

theorem get_set_same (fs : FS) (p : Path) (n : Node) : (fs.set p n).get p = some n := by
  induction fs with
  | nil => simp [set, get]
  | cons e rest ih =>
    obtain ⟨q, m⟩ := e
    by_cases h : q = p
    · simp [set, get, h]
    · simp [set, get, h, ih]

theorem get_set_ne (fs : FS) (p q : Path) (n : Node) (h : q ≠ p) :
    (fs.set p n).get q = fs.get q := by
  induction fs with
  | nil => simp [set, get, h.symm]
  | cons e rest ih =>
    obtain ⟨r, m⟩ := e
    by_cases h1 : r = p
    · subst h1
      have h2 : ¬ r = q := fun e => h e.symm
      simp [set, get, h2]
    · by_cases h2 : r = q
      · subst h2
        simp [set, get, h1]
      · simp [set, get, h1, h2, ih]

theorem mem_of_get (fs : FS) (p : Path) (n : Node) (h : fs.get p = some n) : (p, n) ∈ fs := by
  induction fs with
  | nil => simp [get] at h
  | cons e rest ih =>
    obtain ⟨q, m⟩ := e
    by_cases h1 : q = p
    · simp [get, h1] at h
      simp [h1, h]
    · simp [get, h1] at h
      exact List.mem_cons_of_mem _ (ih h)

theorem node_set_same (fs : FS) (p : Path) (n : Node) (hp : p ≠ []) :
    (fs.set p n).node p = some n := by
  simp [node, hp, get_set_same]

theorem node_set_ne (fs : FS) (p q : Path) (n : Node) (h : q ≠ p) :
    (fs.set p n).node q = fs.node q := by
  simp [node, get_set_ne fs p q n h]

/-- In a well-formed state nothing exists below a path where nothing exists. -/
theorem node_child_none (fs : FS) (hwf : fs.WF) (p : Path) (c : QString)
    (hp : fs.pathExists p = false) : fs.node (p ++ [c]) = none := by
  cases h : fs.node (p ++ [c]) with
  | none => rfl
  | some n =>
    exfalso
    have hg : fs.get (p ++ [c]) = some n := by simpa [node] using h
    have := (hwf _ (mem_of_get fs _ _ hg)).2
    simp only [List.dropLast_concat] at this
    simp [isDir, pathExists] at this hp
    simp [this] at hp

end FS

namespace FS

theorem pathExists_ne_nil (fs : FS) (t : Path) (h : fs.pathExists t = false) : t ≠ [] := by
  intro h0; subst h0; simp [pathExists, node] at h

theorem isDir_set_of_ne (fs : FS) (t p : Path) (n : Node) (h : p ≠ t) :
    (fs.set t n).isDir p = fs.isDir p := by
  simp only [isDir, node_set_ne fs t p n h]

theorem isDir_set_dir_self (fs : FS) (t : Path) (ht : t ≠ []) :
    (fs.set t Node.dir).isDir t = true := by
  simp [isDir, node_set_same fs t _ ht]

theorem isDir_set_dir_mono (fs : FS) (t : Path) (ht : t ≠ []) (p : Path)
    (h : fs.isDir p = true) : (fs.set t Node.dir).isDir p = true := by
  by_cases hp : p = t
  · subst hp; exact isDir_set_dir_self fs p ht
  · rw [isDir_set_of_ne fs t p _ hp]; exact h

/-- Writing a regular file where no directory is leaves the directories as
they are. -/
theorem isDir_set_file (fs : FS) (t : Path) (c : QString) (ht : fs.isDir t = false) (p : Path) :
    (fs.set t (Node.file c)).isDir p = fs.isDir p := by
  by_cases hp : p = t
  · subst hp
    rw [ht]
    by_cases h0 : p = []
    · subst h0; simp [isDir, node] at ht
    · simp [isDir, node_set_same fs p _ h0]
  · exact isDir_set_of_ne fs t p _ hp

end FS

/-! ## createProfile -/

theorem mkdir_false (fs : FS) (d : QDir) (name : QString) (h : (QDir.mkdir fs d name).1 = false) :
    (QDir.mkdir fs d name).2 = fs := by
  unfold QDir.mkdir QDir.createDirectory at *
  by_cases h0 : name = []
  · simp [h0]
  · by_cases h1 : isResourcePath d.path = true
    · simp [h0, h1]
    · by_cases h2 : (split '/' (chopSlashes (d.filePath name))).getLast?.getD [] = ['.'] ∨
          (split '/' (chopSlashes (d.filePath name))).getLast?.getD [] = ['.', '.']
      · simp [h0, h1, h2]
      · cases hr : resolveNative fs (chopSlashes (d.filePath name)) with
        | none => simp [h0, h1, h2, hr]
        | some t =>
          cases he : fs.pathExists t
          · simp [h0, h1, h2, hr, he] at h
          · simp [h0, h1, h2, hr, he]

theorem mkdir_true (fs : FS) (d : QDir) (name : QString) (h : (QDir.mkdir fs d name).1 = true) :
    name ≠ [] ∧
    ¬ ((split '/' (chopSlashes (d.filePath name))).getLast?.getD [] = ['.'] ∨
      (split '/' (chopSlashes (d.filePath name))).getLast?.getD [] = ['.', '.']) ∧
    ∃ t, resolveNative fs (chopSlashes (d.filePath name)) = some t ∧
      fs.pathExists t = false ∧ (QDir.mkdir fs d name).2 = fs.set t Node.dir := by
  unfold QDir.mkdir QDir.createDirectory at *
  by_cases h0 : name = []
  · simp [h0] at h
  · by_cases h1 : isResourcePath d.path = true
    · simp [h0, h1] at h
    · by_cases h2 : (split '/' (chopSlashes (d.filePath name))).getLast?.getD [] = ['.'] ∨
          (split '/' (chopSlashes (d.filePath name))).getLast?.getD [] = ['.', '.']
      · simp [h0, h1, h2] at h
      · cases hr : resolveNative fs (chopSlashes (d.filePath name)) with
        | none => simp [h0, h1, h2, hr] at h
        | some t =>
          cases he : fs.pathExists t
          · exact ⟨h0, h2, t, rfl, he, by simp [h0, h1, h2, hr, he]⟩
          · simp [h0, h1, h2, hr, he] at h

theorem dirExists_ofPath (fs : FS) (s : QString) (hs : s.head? = some '/') :
    QDir.dirExists fs (QDir.ofPath s) = QDir.dirExists fs ⟨s⟩ := by
  obtain ⟨rest, rfl⟩ : ∃ rest, s = '/' :: rest := by
    cases s with
    | nil => simp at hs
    | cons c cs => simp at hs; exact ⟨cs, by rw [hs]⟩
  unfold QDir.ofPath
  rw [if_neg (by simp)]
  split_ifs with h
  · obtain ⟨a, ha⟩ := List.eq_nil_or_concat ('/' :: rest) |>.resolve_left (by simp)
    obtain ⟨c, hc⟩ := ha
    rw [List.concat_eq_append] at hc
    have hc2 : c = '/' := by
      have := h.2
      rw [hc] at this
      simpa using this
    subst hc2
    have hane : a ≠ [] := by
      intro h0; subst h0
      have := h.1
      rw [hc] at this
      simp at this
    obtain ⟨rest2, hr2⟩ : ∃ r, a = '/' :: r := by
      cases a with
      | nil => exact absurd rfl hane
      | cons x xs =>
        rw [List.cons_append] at hc
        exact ⟨xs, by rw [← (List.cons.inj hc).1]⟩
    have hdl : ('/' :: rest).dropLast = a := by rw [hc]; simp
    have hsp : split '/' ('/' :: rest) = split '/' a ++ [[]] := by
      rw [hc]
      simpa [split] using split_append_sep '/' a []
    simp only [QDir.dirExists, hdl]
    rw [resolve_of_slash, hsp, walk_append, hr2, resolve_of_slash]
    cases hw : walk fs [] (split '/' ('/' :: rest2)) with
    | none => rfl
    | some q =>
      cases hq : fs.isDir q <;> simp [walk, hq]
  · rfl

/-! ## Frame of the current profile path -/

namespace ProfileManager

theorem copyDataToProfile_path (w : World) :
    (copyDataToProfile w).currentProfilePath = w.currentProfilePath := by
  unfold copyDataToProfile
  simp only [World.withFs, World.emit]
  split_ifs <;> rfl

theorem updateProfile_path (E : Env) (w : World) (current profile : QString) :
    (updateProfile E w current profile).currentProfilePath = w.currentProfilePath := by
  unfold updateProfile
  simp only [World.emit]
  split_ifs <;> first | rfl | exact copyDataToProfile_path w

theorem updateCurrentProfile_path (E : Env) (w : World) :
    (updateCurrentProfile E w).currentProfilePath = w.currentProfilePath := by
  unfold updateCurrentProfile
  simp only [World.withFs]
  split_ifs <;> simp [updateProfile_path, copyDataToProfile_path]

theorem execStatements_path (E : Env) (l done : List QString) (w : World) :
    (execStatements E l done w).currentProfilePath = w.currentProfilePath := by
  induction l generalizing done w with
  | nil => rfl
  | cons s rest ih =>
    simp only [execStatements]
    split_ifs <;> simp [ih, World.emit]

theorem connectDatabase_path (E : Env) (w : World) :
    (connectDatabase E w).currentProfilePath = w.currentProfilePath := by
  unfold connectDatabase
  simp only [World.emit]
  split_ifs <;> simp [execStatements_path]

theorem initCurrentProfile_path (E : Env) (w : World) (profileName : QString) :
    (initCurrentProfile E w profileName).currentProfilePath =
      E.profiles ++ '/' :: (if profileName = [] then startingProfile E w else profileName) := by
  unfold initCurrentProfile
  simp only [connectDatabase_path, updateCurrentProfile_path, World.setCurrentProfilePath]
  split_ifs <;> simp

end ProfileManager

/-! ## Statements executed by connectDatabase -/

open ProfileManager

theorem executed_append (a b : List Event) : executed (a ++ b) = executed a ++ executed b := by
  simp [executed, List.filterMap_append]

theorem executed_execStatements (E : Env) (l done : List QString) (w : World) :
    executed (execStatements E l done w).events =
      executed w.events ++ (l.map trimmed).filter (fun s => s ≠ []) := by
  induction l generalizing done w with
  | nil => simp [execStatements]
  | cons s rest ih =>
    simp only [execStatements]
    by_cases h : trimmed s = []
    · simp [h, ih]
    · simp only [h, if_false, ih, List.map_cons]
      rw [List.filter_cons_of_pos (by simpa using h)]
      split_ifs <;> simp [World.emit, executed_append, executed]

/-! ## Release dispatch -/

namespace BookmarksToolbarButton

theorem releaseDispatch_eq (b : BookmarksToolbarButton) (event : QMouseEvent) :
    releaseDispatch b event =
      { b with calls := b.calls ++ (releaseTable b.m_bookmark b.m_window
          (b.rectContains event.x event.y) b.m_buttons b.m_modifiers) } := by
  generalize hin : b.rectContains event.x event.y = inside
  obtain ⟨bm, win, bt, md, wd, ht, cl⟩ := b
  simp only [releaseDispatch, hin]
  cases bm with
  | none => simp [releaseTable]
  | some bm =>
    obtain ⟨ty, title⟩ := bm
    cases inside
    · simp [releaseTable]
    · cases ty <;> cases win <;>
        simp [releaseTable, call, BookmarkItem.isUrl, BookmarkItem.isFolder, bookmarkActivated,
          bookmarkShiftActivated, bookmarkCtrlActivated, openBookmark, openBookmarkInNewTab,
          openBookmarkInNewWindow, openFolder] <;>
        (split_ifs <;> simp)

theorem releaseTable_length (bookmark : Option BookmarkItem) (window : Option Window)
    (inside : Bool) (buttons modifiers : Nat) :
    (releaseTable bookmark window inside buttons modifiers).length ≤ 1 := by
  unfold releaseTable
  cases bookmark with
  | none => simp
  | some bm =>
    cases window <;> simp <;> (split_ifs <;> simp)

end BookmarksToolbarButton

theorem dirExists_below (fs : FS) (p : Path) (hp : ∀ c ∈ p, Plain c) (name : QString) :
    QDir.dirExists fs (QDir.ofPath (render p ++ '/' :: name)) =
      match below fs p name with
      | some t => fs.isDir t
      | none => false := by
  rw [dirExists_ofPath fs _ (by simp [render])]
  simp only [QDir.dirExists, resolve_render_slash fs p hp name]

/-- The state after a successful `mkdir(name)`, `cd(name)` and the writing of
`version`, for a relative name below a clean absolute path. -/
theorem createProfile_state (fs : FS) (p : Path) (hp : ∀ c ∈ p, Plain c) (name data : QString)
    (hwf : fs.WF) (hrel : QDir.isAbsolutePath name = false)
    (hok : (cleanPath (render p ++ '/' :: name)).2 = true)
    (hm : (QDir.mkdir fs ⟨render p⟩ name).1 = true) :
    QDir.dirExists
      (QFile.writeAll (QDir.mkdir fs ⟨render p⟩ name).2
        ((QDir.cd (QDir.mkdir fs ⟨render p⟩ name).2 ⟨render p⟩ name).filePath (qs "version")) data)
      (QDir.ofPath (render p ++ '/' :: name)) = true ∧
    QFile.contentAt
      (QFile.writeAll (QDir.mkdir fs ⟨render p⟩ name).2
        ((QDir.cd (QDir.mkdir fs ⟨render p⟩ name).2 ⟨render p⟩ name).filePath (qs "version")) data)
      (render p ++ '/' :: (name ++ qs "/version")) = some data := by
  obtain ⟨hne, hlast, t, hres, hnew, hfs⟩ := mkdir_true fs ⟨render p⟩ name hm
  rw [hfs]
  have htne : t ≠ [] := FS.pathExists_ne_nil fs t hnew
  have hmono : ∀ q, fs.isDir q = true → (fs.set t Node.dir).isDir q = true :=
    FS.isDir_set_dir_mono fs t htne
  have hd1 : (fs.set t Node.dir).isDir t = true := FS.isDir_set_dir_self fs t htne
  have hr1 := resolveNative_unchop fs (fs.set t Node.dir) _ t hmono hres hd1
  have hb1 : below (fs.set t Node.dir) p name = some t := by
    obtain ⟨rest, hrest⟩ := filePath_render_head p hp name hrel hne
    rw [← walk_filePath_render _ p hp name hrel hne]
    simpa [resolveNative, hrest] using hr1
  have hflag : ((split '/' name).foldl cleanStep (p, false)).2 = false := by
    rw [cleanPath_flag p hp name] at hok
    simpa using hok
  have hv := cd_version (fs.set t Node.dir) p hp name hrel hne t hb1 hd1 hlast hflag
  have hchild : (fs.set t Node.dir).node (t ++ [qs "version"]) = none := by
    rw [FS.node_set_ne _ _ _ _ (by simp)]
    exact FS.node_child_none fs hwf t _ hnew
  have hw : QFile.writeAll (fs.set t Node.dir)
      ((QDir.cd (fs.set t Node.dir) ⟨render p⟩ name).filePath (qs "version")) data =
      (fs.set t Node.dir).set (t ++ [qs "version"]) (Node.file data) := by
    simp only [QFile.writeAll, hv, hchild, List.dropLast_concat, hd1, if_true]
  rw [hw]
  have hvd : (fs.set t Node.dir).isDir (t ++ [qs "version"]) = false := by
    simp [FS.isDir, hchild]
  have hsame := FS.isDir_set_file (fs.set t Node.dir) (t ++ [qs "version"]) data hvd
  have hb2 : below ((fs.set t Node.dir).set (t ++ [qs "version"]) (Node.file data)) p name =
      some t := by
    unfold below at hb1 ⊢
    simpa only [walk_congr _ _ hsame] using hb1
  have hd2 : ((fs.set t Node.dir).set (t ++ [qs "version"]) (Node.file data)).isDir t = true := by
    rw [hsame]; exact hd1
  constructor
  · rw [dirExists_below _ p hp name, hb2]
    exact hd2
  · have hsp : split '/' (name ++ qs "/version") = split '/' name ++ [qs "version"] := by
      have : name ++ qs "/version" = name ++ '/' :: qs "version" := by
        simp [qs]
      rw [this, split_append_sep]
      congr 1
    unfold QFile.contentAt
    rw [resolve_render_slash _ p hp]
    obtain ⟨hwp, _, hwn⟩ := below_some _ p hp name t hb2
    have hbv : below ((fs.set t Node.dir).set (t ++ [qs "version"]) (Node.file data)) p
        (name ++ qs "/version") = some (t ++ [qs "version"]) := by
      unfold below
      rw [hwp, Option.some_bind, hsp, walk_append, hwn, Option.some_bind]
      exact walk_version _ t hd2
    rw [hbv]
    simp [FS.content, FS.node_set_same]

/-! ## updateCurrentProfile -/

namespace ProfileManager

end ProfileManager

namespace ProfileManager

end ProfileManager

namespace ProfileManager

end ProfileManager

/-! ## Claims -/

/-- C9.  `currentProfile()` is the part of the current profile path after its
last slash, the whole path when there is none, and so it reads back the name
that `initCurrentProfile` set: a non-empty name without a slash is returned as
it is, and for the empty name the value of `startingProfile()` is returned
when that contains no slash. -/
theorem currentProfile_reads_back (E : Env) (w : World) (name : QString) :
    ('/' ∉ w.currentProfilePath → currentProfile w = w.currentProfilePath) ∧
    (∀ a b : QString, w.currentProfilePath = a ++ '/' :: b → '/' ∉ b → currentProfile w = b) ∧
    (name ≠ [] → '/' ∉ name → currentProfile (initCurrentProfile E w name) = name) ∧
    (name = [] → '/' ∉ startingProfile E w →
      currentProfile (initCurrentProfile E w name) = startingProfile E w) := by
  have key : ∀ (v : World) (a b : QString), v.currentProfilePath = a ++ '/' :: b → '/' ∉ b →
      currentProfile v = b := by
    intro v a b hp hb
    simp only [currentProfile, hp, lastIndexOf_append '/' a b hb]
    exact mid_append a b '/'
  refine ⟨?_, key w, ?_, ?_⟩
  · intro h
    simp only [currentProfile, lastIndexOf_of_not_mem '/' _ h]
    exact mid_whole _
  · intro hne hs
    apply key _ E.profiles name _ hs
    rw [initCurrentProfile_path, if_neg hne]
  · intro he hs
    apply key _ E.profiles (startingProfile E w) _ hs
    rw [initCurrentProfile_path, if_pos he]

/-- C9 at the profile name `work`, set from an empty world. -/
theorem currentProfile_reads_back_witness :
    qs "work" ≠ [] ∧ '/' ∉ qs "work" ∧
    currentProfile (initCurrentProfile sampleEnv ⟨[], [], []⟩ (qs "work")) = qs "work" :=
  ⟨by decide, by decide,
    (currentProfile_reads_back sampleEnv ⟨[], [], []⟩ (qs "work")).2.2.1 (by decide) (by decide)⟩

/-- C1.  `updateProfile(current, profile)` runs `copyDataToProfile` exactly
when `profile` differs from `current`, the parsed profile version is greater
than the version of the application and its revision number is not 99.  For
every other input the file system is left as it was; the only effect left is
the line on standard output for a version below 1.9.0. -/
theorem updateProfile_copies_iff (E : Env) (w : World) (current profile : QString) :
    updateProfile E w current profile =
      (if profile ≠ current ∧ E.ver.gt (E.ver.parse profile) (E.ver.parse E.VERSION) = true ∧
          E.ver.revisionNumber (E.ver.parse profile) ≠ 99 then copyDataToProfile w
        else if profile ≠ current ∧
          E.ver.gt (E.ver.parse profile) (E.ver.parse E.VERSION) = false ∧
          E.ver.lt (E.ver.parse profile) (E.ver.parse (qs "1.9.0")) = true then
            w.emit (Event.stdout
              (qs "Falkon: Using profile from QupZilla " ++ profile ++ qs " is not supported!"))
        else w) ∧
    (¬ (profile ≠ current ∧ E.ver.gt (E.ver.parse profile) (E.ver.parse E.VERSION) = true ∧
          E.ver.revisionNumber (E.ver.parse profile) ≠ 99) →
      (updateProfile E w current profile).fs = w.fs) := by
  unfold updateProfile
  by_cases hc : current = profile
  · subst hc; simp
  · have hc2 : profile ≠ current := fun h => hc h.symm
    simp only [hc, hc2, if_false, ne_eq, not_false_eq_true, true_and]
    cases hgt : E.ver.gt (E.ver.parse profile) (E.ver.parse E.VERSION)
    · simp only [Bool.false_eq_true, if_false, false_and, true_and, not_false_eq_true,
        forall_true_left]
      refine ⟨?_, ?_⟩
      · split_ifs <;> rfl
      · split_ifs <;> rfl
    · by_cases hr : E.ver.revisionNumber (E.ver.parse profile) = 99
      · simp [hr]
      · simp [hr]

/-- C1 at a development version: the profile version 3.0.99 is newer than the
application 3.0.0 but has revision 99, and the file system is left alone. -/
theorem updateProfile_copies_iff_witness :
    (updateProfile sampleEnv sessionWorld (qs "3.0.0") (qs "3.0.99")).fs = sessionWorld.fs :=
  (updateProfile_copies_iff sampleEnv sessionWorld (qs "3.0.0") (qs "3.0.99")).2 (by decide)

/-- C2, failing input.  The profile holds `browsedata.db` and `session.dat` and
has no directory `sessions`: the copy of the session file fails, the file is
removed all the same, and no file of the state holds its contents any more. -/
theorem copyDataToProfile_loses_session :
    sessionWorld.fs.WF ∧
    sessionWorld.fs.content (pathOf (qs "/cfg/profiles/default/session.dat")) =
      some (qs "SESSION") ∧
    (QFile.copy (QFile.remove sessionWorld.fs (qs "/cfg/profiles/default/browsedata.db")).2
      (qs "/cfg/profiles/default/session.dat")
      (qs "/cfg/profiles/default/sessions/backup-unknown-version.dat")).1 = false ∧
    (copyDataToProfile sessionWorld).fs.content
      (pathOf (qs "/cfg/profiles/default/session.dat")) = none ∧
    (∀ e ∈ (copyDataToProfile sessionWorld).fs, e.2 ≠ Node.file (qs "SESSION")) := by
  decide

open ProfileManager in
/-- C3, amended.  With `<Profiles>` a clean absolute path: `createProfile(name)`
returns -1 when the directory `<Profiles>/name` exists, and then changes
nothing; -2 when it does not exist and `mkdir(name)` fails, also without a
change; 0 otherwise; no other value.  After a return of 0 for a relative name
(no leading slash, no leading colon) that does not lead above the root
directory, `<Profiles>/name` is a directory and holds a file `version` with
the content `Qz::VERSION`. -/
theorem createProfile_codes (E : Env) (w : World) (name : QString)
    (hP : CleanAbsolute E.profiles) :
    ((createProfile E w name).1 = -1 ∨ (createProfile E w name).1 = -2 ∨
      (createProfile E w name).1 = 0) ∧
    (profileDirExists E w.fs name = true → createProfile E w name = (-1, w)) ∧
    (profileDirExists E w.fs name = false →
      (QDir.mkdir w.fs (QDir.ofPath E.profiles) name).1 = false →
      createProfile E w name = (-2, w)) ∧
    (profileDirExists E w.fs name = false →
      (QDir.mkdir w.fs (QDir.ofPath E.profiles) name).1 = true →
      (createProfile E w name).1 = 0 ∧
      (w.fs.WF → QDir.isAbsolutePath name = false →
        (cleanPath (E.profiles ++ '/' :: name)).2 = true →
        profileDirExists E (createProfile E w name).2.fs name = true ∧
        QFile.contentAt (createProfile E w name).2.fs
          (E.profiles ++ '/' :: (name ++ qs "/version")) = some E.VERSION)) := by
  obtain ⟨p, hp, hPeq⟩ : ∃ p : Path, (∀ c ∈ p, Plain c) ∧ E.profiles = render p :=
    ⟨pathOf E.profiles, pathOf_plain _ hP, hP.1⟩
  have hex : QDir.dirExists w.fs
      (QDir.ofPath ((QDir.ofPath E.profiles).absolutePath ++ '/' :: name)) =
      profileDirExists E w.fs name := by
    rw [profileDirExists, hPeq, ofPath_render p hp, absolutePath_render p hp]
  refine ⟨?_, ?_, ?_, ?_⟩
  · unfold createProfile
    simp only []
    split_ifs <;> simp
  · intro h
    unfold createProfile
    simp [hex, h]
  · intro h hm
    unfold createProfile
    simp only [hex, h, hm, Bool.false_eq_true, if_false, Bool.not_false, if_true]
    simp [World.withFs, mkdir_false _ _ _ hm]
  · intro h hm
    refine ⟨?_, ?_⟩
    · unfold createProfile
      simp [hex, h, hm]
    · intro hwf hrel hok
      have hres : (createProfile E w name).2.fs =
          QFile.writeAll (QDir.mkdir w.fs (QDir.ofPath E.profiles) name).2
            ((QDir.cd (QDir.mkdir w.fs (QDir.ofPath E.profiles) name).2
              (QDir.ofPath E.profiles) name).filePath (qs "version")) E.VERSION := by
        unfold createProfile
        simp only [hex, h, hm, Bool.false_eq_true, if_false, Bool.not_true, World.withFs]
      rw [hres, profileDirExists]
      rw [hPeq, ofPath_render p hp] at hm ⊢
      rw [hPeq] at hok
      exact createProfile_state w.fs p hp name E.VERSION hwf hrel hok hm

/-- C3 as stated fails for an absolute name: `createProfile("/x")` returns 0,
yet `<Profiles>//x` is no directory afterwards; the directory made is `/x`. -/
theorem createProfile_absolute_name :
    (ProfileManager.createProfile sampleEnv missingProfileWorld (qs "/x")).1 = 0 ∧
    profileDirExists sampleEnv
      (ProfileManager.createProfile sampleEnv missingProfileWorld (qs "/x")).2.fs (qs "/x") = false ∧
    (ProfileManager.createProfile sampleEnv missingProfileWorld (qs "/x")).2.fs.isDir [qs "x"] =
      true := by
  decide

/-- C3, amended, at the name `work`: the call returns 0 and leaves the
directory with its `version` file. -/
theorem createProfile_codes_witness :
    CleanAbsolute sampleEnv.profiles ∧
    profileDirExists sampleEnv
      (ProfileManager.createProfile sampleEnv missingProfileWorld (qs "work")).2.fs (qs "work") =
        true ∧
    QFile.contentAt (ProfileManager.createProfile sampleEnv missingProfileWorld (qs "work")).2.fs
        (sampleEnv.profiles ++ '/' :: (qs "work" ++ qs "/version")) = some sampleEnv.VERSION :=
  ⟨by decide,
    ((createProfile_codes sampleEnv missingProfileWorld (qs "work") (by decide)).2.2.2
      (by decide) (by decide)).2 (by decide) (by decide) (by decide)⟩

/-- C4.  `connectDatabase` loads the schema only into a database without
tables: with a valid driver, a database that opens and an empty table list the
statements executed are the trimmed non-empty pieces of `browsedata.sql`
between semicolons, each once and in file order, whatever the outcome of the
single statements; in every other case no statement is executed. -/
theorem connectDatabase_schema_once (E : Env) (w : World) :
    executed (connectDatabase E w).events =
      executed w.events ++
        (if E.driverValid = true ∧
            E.dbOpens w.fs E.isPrivate (w.currentProfilePath ++ qs "/browsedata.db") = true ∧
            E.dbTables w.fs (w.currentProfilePath ++ qs "/browsedata.db") = []
          then schemaStatements E.browsedataSql else []) := by
  unfold connectDatabase schemaStatements
  cases hv : E.driverValid
  · simp [World.emit, executed_append, executed]
  · cases ho : E.dbOpens w.fs E.isPrivate (w.currentProfilePath ++ qs "/browsedata.db")
    · simp [World.emit, executed_append, executed, ho]
    · by_cases ht : E.dbTables w.fs (w.currentProfilePath ++ qs "/browsedata.db") = []
      · simp [World.emit, executed_append, ho, ht, executed_execStatements]
        simp [executed]
      · have ht2 : (E.dbTables w.fs (w.currentProfilePath ++ qs "/browsedata.db")).isEmpty = false := by
          cases h : E.dbTables w.fs (w.currentProfilePath ++ qs "/browsedata.db") with
          | nil => exact absurd h ht
          | cons a l => rfl
        simp [World.emit, executed_append, ho, ht, ht2]
        simp [executed]

/-- C5, failing input.  The profile directory `/cfg/profiles/pro` is missing.
Removing the directory name from the path removes it from `profiles` too, so
`mkdir` is tried below `/cfg/files`, fails, and no `version` file is written.
For the name `zzz`, which occurs once in its path, the same call writes it. -/
theorem updateCurrentProfile_writes_no_version :
    remove (qs "/cfg/profiles/pro") (qs "pro") = qs "/cfg/files/" ∧
    (updateCurrentProfile sampleEnv missingProfileWorld).fs.content
      (pathOf (qs "/cfg/profiles/pro/version")) = none ∧
    (updateCurrentProfile sampleEnv
      (missingProfileWorld.setCurrentProfilePath (qs "/cfg/profiles/zzz"))).fs.content
      (pathOf (qs "/cfg/profiles/zzz/version")) = some sampleEnv.VERSION := by
  decide

/-- C6.  `initConfigDir` leaves an existing configuration alone: when the
configuration directory exists and `profiles/profiles.ini` exists in it, the
call returns with the state (file system and effects) as it was. -/
theorem initConfigDir_keeps_existing (E : Env) (w : World)
    (hdir : QDir.dirExists w.fs (QDir.ofPath E.config) = true)
    (hini : QFile.fileExists w.fs
      ((QDir.ofPath E.config).filePath (qs "profiles/profiles.ini")) = true) :
    initConfigDir E w = w := by
  unfold initConfigDir
  simp [hdir, hini]

/-- C6 at a configuration that holds `profiles/profiles.ini`. -/
theorem initConfigDir_keeps_existing_witness :
    initConfigDir sampleEnv configuredWorld = configuredWorld :=
  initConfigDir_keeps_existing sampleEnv configuredWorld (by decide) (by decide)

open BookmarksToolbarButton in
/-- C7, amended.  A release makes at most one open call, decided by the
recorded buttons and modifiers as the claim lists them, where opening the
bookmark, opening it in a new tab and opening a folder in tabs happen only
when a main window is set (opening in a new window needs none); a release
outside the rectangle opens nothing; afterwards the recorded buttons and
modifiers are `NoButton` and `NoModifier`. -/
theorem mouseRelease_table (b : BookmarksToolbarButton) (event : QMouseEvent) :
    (mouseReleaseEvent b event).calls =
        b.calls ++ releaseTable b.m_bookmark b.m_window (b.rectContains event.x event.y)
          b.m_buttons b.m_modifiers ++ [Call.baseRelease] ∧
    (releaseTable b.m_bookmark b.m_window (b.rectContains event.x event.y)
          b.m_buttons b.m_modifiers).length ≤ 1 ∧
    (mouseReleaseEvent b event).m_buttons = Qt.NoButton ∧
    (mouseReleaseEvent b event).m_modifiers = Qt.NoModifier := by
  refine ⟨?_, releaseTable_length _ _ _ _ _, rfl, rfl⟩
  simp [mouseReleaseEvent, releaseDispatch_eq, call]

/-- C7 as stated fails without a main window: a URL bookmark, pressed with
the left button and no modifier and released inside the rectangle, is not
opened; the base class handler is the only call. -/
theorem mouseRelease_without_window :
    urlButtonNoWindow.m_bookmark = some ⟨ItemType.Url, qs "Home"⟩ ∧
    urlButtonNoWindow.rectContains 5 5 = true ∧
    urlButtonNoWindow.m_buttons = Qt.LeftButton ∧
    urlButtonNoWindow.m_modifiers = Qt.NoModifier ∧
    (BookmarksToolbarButton.mouseReleaseEvent urlButtonNoWindow
      ⟨Qt.NoButton, Qt.NoModifier, 5, 5⟩).calls = [Call.baseRelease] := by
  decide

end Falkon
